import Mathlib

/-!
# Llambo C module: model registry and greedy generation loop

A shallow embedding of `inferno/c-module/llambo_c.c`.

Modelling conventions.

* A native pointer (`llama_model *`, `llama_context *`) is `Option Nat`:
  `none` is `nil`, `some p` is the native object `p`.
* C text is a list of `char` values (`CStr`); the byte 0 is NUL.  A Limbo
  `String *` argument is `Option CStr` (`none` is `nil`), and `string2c` is
  the identity on the text.
* `int` is `Int`.  The counters of the source stay far below the range of a
  32-bit `int` (at most 32 models, at most 8191 output bytes), so no
  wrap-around is modelled.
* The static table `models[32]` is a list of exactly 32 slots.  Indexing it
  outside `0 .. 31` is undefined behaviour in C: every operation returns an
  `Option`, and `none` stands for an execution that indexes out of bounds.
* The results of `malloc` and of the llama.cpp backend are inputs of the
  model: they are whatever the host hands back.
* Every operation also returns the list of backend calls it made, in order.
-/

namespace Llambo

/-- C text: a sequence of `char` values. -/
abbrev CStr := List Nat

/-- Native pointer: `none` is `nil`. -/
abbrev Ptr := Option Nat

/-- The `LlamaModel` record of the source. -/
structure LlamaModel where
  model : Ptr
  ctx : Ptr
  path : Option CStr
  ref_count : Int
deriving DecidableEq, Repr

/-- Calls into llama.cpp, recorded in program order. -/
inductive Call where
  | backend_init
  | backend_free
  | load_model_from_file (path : CStr) (use_mmap n_gpu_layers : Int)
  | new_context_with_model (model : Ptr)
  | free_ctx (ctx : Ptr)
  | free_model (model : Ptr)
  | tokenize (model : Ptr) (text : CStr)
  | decode_prompt (ctx : Ptr) (tokens : List Int) (n_past : Int)
  | get_logits (ctx : Ptr)
  | token_to_piece (ctx : Ptr) (token : Int)
  | decode_token (ctx : Ptr) (token : Int) (n_past : Int)
deriving DecidableEq, Repr

/-- The global state: `static LlamaModel *models[32]` and `static int nmodels`. -/
structure Registry where
  models : List (Option LlamaModel)
  nmodels : Int
  size_eq : models.length = 32
deriving DecidableEq

/-- Read of `models[i]`; `none` when `i` is outside the table. -/
def Registry.slot (r : Registry) (i : Int) : Option (Option LlamaModel) :=
  if 0 ≤ i then r.models[i.toNat]? else none

/-- Write of `models[i] = v` for an index inside the table. -/
def Registry.store (r : Registry) (i : Nat) (v : Option LlamaModel) : Registry :=
  { models := r.models.set i v, nmodels := r.nmodels, size_eq := by simp [r.size_eq] }

/-- Assignment to `nmodels`. -/
def Registry.setCount (r : Registry) (n : Int) : Registry :=
  { models := r.models, nmodels := n, size_eq := r.size_eq }

/-- Result of an operation returning an `int` through `Word *`. -/
structure Ret where
  ret : Int
  reg : Registry
  calls : List Call
deriving DecidableEq

/-- The function `strlen`: number of bytes before the first NUL. -/
def strlen (s : CStr) : Nat := (s.takeWhile (fun c => c != 0)).length

/-- The function `mkstring`: `nil` is read as `""`, then `strlen s` bytes of
`s` are copied into the new Limbo string.  The argument is the memory at `s`. -/
def mkstring (s : Option CStr) : CStr :=
  match s with
  | none => []
  | some bytes => bytes.take (strlen bytes)

/-- The memory of the string literal `""`. -/
def emptyLit : CStr := [0]

/-- What the host returns during one `llama_load_model` call. -/
structure LoadEnv where
  malloc_ok : Bool
  model : Ptr
  ctx : Ptr
deriving DecidableEq, Repr

/-- The function `llama_load_model`. -/
def llama_load_model (env : LoadEnv) (r : Registry) (path : Option CStr)
    (use_mmap n_gpu_layers : Int) : Option Ret :=
  match path with
  | none => some ⟨-1, r, []⟩
  | some p =>
    if r.nmodels ≥ 32 then some ⟨-1, r, []⟩
    else if env.malloc_ok = false then some ⟨-1, r, [Call.backend_init]⟩
    else
      match env.model with
      | none =>
        some ⟨-1, r, [Call.backend_init, Call.load_model_from_file p use_mmap n_gpu_layers]⟩
      | some m =>
        match env.ctx with
        | none =>
          some ⟨-1, r, [Call.backend_init, Call.load_model_from_file p use_mmap n_gpu_layers,
            Call.new_context_with_model (some m), Call.free_model (some m)]⟩
        | some c =>
          let lm : LlamaModel := { model := some m, ctx := some c, path := some p, ref_count := 1 }
          let model_id := r.nmodels
          if 0 ≤ r.nmodels then
            some ⟨model_id, (r.store r.nmodels.toNat (some lm)).setCount (r.nmodels + 1),
              [Call.backend_init, Call.load_model_from_file p use_mmap n_gpu_layers,
                Call.new_context_with_model (some m)]⟩
          else none

/-- Native teardown of one `LlamaModel`: `llama_free(lm->ctx)` first, then
llama.cpp's `llama_free_model(lm->model)`, each only for a non-nil pointer. -/
def teardown (lm : LlamaModel) : List Call :=
  (if lm.ctx ≠ none then [Call.free_ctx lm.ctx] else []) ++
  (if lm.model ≠ none then [Call.free_model lm.model] else [])

/-- The function `llama_free_model`. -/
def llama_free_model (r : Registry) (model_id : Int) : Option Ret :=
  if model_id < 0 ∨ model_id ≥ r.nmodels then some ⟨-1, r, []⟩
  else
    match r.slot model_id with
    | none => none
    | some none => some ⟨-1, r, []⟩
    | some (some lm) =>
      let lm1 : LlamaModel := { lm with ref_count := lm.ref_count - 1 }
      if lm1.ref_count ≤ 0 then
        some ⟨0, r.store model_id.toNat none, teardown lm1⟩
      else
        some ⟨0, r.store model_id.toNat (some lm1), []⟩

/-- The function `llambo_cmodinit`: every slot `nil`, `nmodels = 0`. -/
def llambo_cmodinit : Registry :=
  { models := List.replicate 32 none, nmodels := 0, size_eq := by simp }

/-- The function `llambo_cmodcleanup`, loop part: slots `i, i+1, ...` for
`count` more iterations. -/
def cleanup_loop : Nat → Nat → Registry → List Call → Option (Registry × List Call)
  | 0, _, r, calls => some (r, calls)
  | count + 1, i, r, calls =>
    match r.slot i with
    | none => none
    | some none => cleanup_loop count (i + 1) r calls
    | some (some lm) => cleanup_loop count (i + 1) (r.store i none) (calls ++ teardown lm)

/-- The function `llambo_cmodcleanup`. -/
def llambo_cmodcleanup (r : Registry) : Option (Registry × List Call) :=
  match cleanup_loop r.nmodels.toNat 0 r [] with
  | none => none
  | some (r1, calls) => some (r1.setCount 0, calls ++ [Call.backend_free])

/-- The llama.cpp backend as seen by this module.  The type `σ` is the state
of the native side (it changes only in `decode`), `α` is the type of logits. -/
structure Backend (σ : Type) (α : Type) where
  /-- Return value of `llama_tokenize` and the ids written to the buffer. -/
  tokenize : σ → Ptr → CStr → Int × List Int
  /-- Return value of `llama_decode` (0 is success) and the next state. -/
  decode : σ → Ptr → List Int → Int → Int × σ
  /-- Result of `llama_get_logits_ith(ctx, -1)`; `none` is `nil`. -/
  get_logits : σ → Ptr → Option (Nat → α)
  n_vocab : σ → Ptr → Int
  token_is_eog : σ → Ptr → Int → Bool
  /-- Result of `llama_token_to_piece`: `nil`, or the `token_len` bytes at `token_str`. -/
  token_to_piece : σ → Ptr → Int → Option CStr
  n_ctx : σ → Ptr → Int

/-- The sampling scan of `llama_infer`: `new_token = 0`, `max_logit = logits[0]`,
then `i = 1 .. n_vocab - 1` replacing both on a strictly greater logit.
Returns `(new_token, max_logit)`. -/
def greedy {α : Type} [LinearOrder α] (logits : Nat → α) (n_vocab : Int) : Nat × α :=
  (List.range' 1 (n_vocab.toNat - 1)).foldl
    (fun acc i => if logits i > acc.2 then (i, logits i) else acc) (0, logits 0)

/-- Local variables of the generation loop of `llama_infer`; `result` is
`result_str[0 .. result_len)`. -/
structure Gen (σ : Type) where
  s : σ
  n_past : Int
  n_gen : Int
  result : CStr
  calls : List Call

/-- The append of one piece: `token_str != nil && result_len + token_len < 8192`. -/
def append_piece (result : CStr) (piece : Option CStr) : CStr :=
  match piece with
  | none => result
  | some bytes => if result.length + bytes.length < 8192 then result ++ bytes else result

/-- One pass through the body of `while (n_gen < max_tokens)`.  The flag is
`false` when the pass leaves the loop by `break`. -/
def infer_iter {σ α : Type} [LinearOrder α] (b : Backend σ α) (model ctx : Ptr)
    (st : Gen σ) : Gen σ × Bool :=
  match b.get_logits st.s ctx with
  | none => ({ st with calls := st.calls ++ [Call.get_logits ctx] }, false)
  | some logits =>
    let new_token : Int := (greedy logits (b.n_vocab st.s model)).1
    if b.token_is_eog st.s model new_token = true then
      ({ st with calls := st.calls ++ [Call.get_logits ctx] }, false)
    else
      let result := append_piece st.result (b.token_to_piece st.s ctx new_token)
      let calls := st.calls ++ [Call.get_logits ctx, Call.token_to_piece ctx new_token,
        Call.decode_token ctx new_token st.n_past]
      let d := b.decode st.s ctx [new_token] st.n_past
      if d.1 ≠ 0 then
        ({ s := d.2, n_past := st.n_past, n_gen := st.n_gen, result := result, calls := calls },
          false)
      else
        ({ s := d.2, n_past := st.n_past + 1, n_gen := st.n_gen + 1, result := result,
           calls := calls }, true)

/-- The loop `while (n_gen < max_tokens)`, with a bound on the number of passes. -/
def infer_loop {σ α : Type} [LinearOrder α] (b : Backend σ α) (model ctx : Ptr)
    (max_tokens : Int) : Nat → Gen σ → Gen σ
  | 0, st => st
  | fuel + 1, st =>
    if st.n_gen < max_tokens then
      let next := infer_iter b model ctx st
      if next.2 = true then infer_loop b model ctx max_tokens fuel next.1 else next.1
    else st

/-- What `malloc` returns during one `llama_infer` call. -/
structure InferAlloc where
  tokens_ok : Bool
  result_ok : Bool
deriving DecidableEq, Repr

/-- Result of `llama_infer`: the Limbo string, the native state, the backend calls. -/
structure InferResult (σ : Type) where
  text : CStr
  s : σ
  calls : List Call

set_option linter.unusedVariables false in
/-- The function `llama_infer`.  Each pass of the loop that does not leave it
adds one to `n_gen`, which starts at 0, so `max_tokens.toNat` passes suffice. -/
def llama_infer {σ α : Type} [LinearOrder α] (b : Backend σ α) (s : σ) (mem : InferAlloc)
    (r : Registry) (model_id : Int) (prompt : Option CStr) (max_tokens : Int)
    (temperature : Float) : Option (InferResult σ) :=
  if model_id < 0 ∨ model_id ≥ r.nmodels ∨ prompt = none then
    some ⟨mkstring (some emptyLit), s, []⟩
  else
    match r.slot model_id with
    | none => none
    | some none => some ⟨mkstring (some emptyLit), s, []⟩
    | some (some lm) =>
      if lm.ctx = none then some ⟨mkstring (some emptyLit), s, []⟩
      else if mem.tokens_ok = false then some ⟨mkstring (some emptyLit), s, []⟩
      else
        let text := prompt.getD []
        let t := b.tokenize s lm.model text
        let n_tokens := t.1
        if n_tokens < 0 then
          some ⟨mkstring (some emptyLit), s, [Call.tokenize lm.model text]⟩
        else if mem.result_ok = false then
          some ⟨mkstring (some emptyLit), s, [Call.tokenize lm.model text]⟩
        else
          let batch := t.2.take n_tokens.toNat
          let d := b.decode s lm.ctx batch 0
          let calls := [Call.tokenize lm.model text, Call.decode_prompt lm.ctx batch 0]
          if d.1 ≠ 0 then some ⟨mkstring (some emptyLit), d.2, calls⟩
          else
            let st := infer_loop b lm.model lm.ctx max_tokens max_tokens.toNat
              { s := d.2, n_past := 0 + n_tokens, n_gen := 0, result := [], calls := calls }
            some ⟨mkstring (some (st.result ++ [0])), st.s, st.calls⟩

/-- Result of `llama_tokenize`: the array of token ids (`none` is the value
`H`), the registry after the call, the backend calls. -/
structure TokRet where
  tokens : Option (List Int)
  reg : Registry
  calls : List Call
deriving DecidableEq

/-- The function `llama_tokenize`. -/
def llama_tokenize {σ α : Type} (b : Backend σ α) (s : σ) (malloc_ok : Bool)
    (r : Registry) (model_id : Int) (text : Option CStr) : Option TokRet :=
  if model_id < 0 ∨ model_id ≥ r.nmodels ∨ text = none then some ⟨none, r, []⟩
  else
    match r.slot model_id with
    | none => none
    | some none => some ⟨none, r, []⟩
    | some (some lm) =>
      if lm.ctx = none then some ⟨none, r, []⟩
      else if malloc_ok = false then some ⟨none, r, []⟩
      else
        let t := b.tokenize s lm.model (text.getD [])
        if t.1 < 0 then some ⟨none, r, [Call.tokenize lm.model (text.getD [])]⟩
        else some ⟨some (t.2.take t.1.toNat), r, [Call.tokenize lm.model (text.getD [])]⟩

/-- Decimal digits of `n`, most significant first, for at most `fuel` digits. -/
def dec_digits : Nat → Nat → CStr → CStr
  | 0, _, acc => acc
  | fuel + 1, n, acc =>
    if n < 10 then (48 + n) :: acc else dec_digits fuel (n / 10) ((48 + n % 10) :: acc)

/-- The conversion `%d` of `snprintf`: a minus sign for a negative value, then
the decimal digits. -/
def fmt_d (i : Int) : CStr :=
  if i < 0 then 45 :: dec_digits (i.natAbs + 1) i.natAbs []
  else dec_digits (i.natAbs + 1) i.natAbs []

/-- The conversion `%s` of `snprintf`: the bytes before the first NUL. -/
def fmt_s (p : CStr) : CStr := p.takeWhile (fun c => c != 0)

/-- The bytes of `{"model_id": `, the format up to the first conversion. -/
def fmt_model_id : CStr := [123, 34, 109, 111, 100, 101, 108, 95, 105, 100, 34, 58, 32]

/-- The bytes of `, "path": "`. -/
def fmt_path : CStr := [44, 32, 34, 112, 97, 116, 104, 34, 58, 32, 34]

/-- The bytes of `", "n_vocab": `. -/
def fmt_n_vocab : CStr := [34, 44, 32, 34, 110, 95, 118, 111, 99, 97, 98, 34, 58, 32]

/-- The bytes of `, "n_ctx": `. -/
def fmt_n_ctx : CStr := [44, 32, 34, 110, 95, 99, 116, 120, 34, 58, 32]

/-- The bytes of `, "ref_count": `. -/
def fmt_ref_count : CStr := [44, 32, 34, 114, 101, 102, 95, 99, 111, 117, 110, 116, 34, 58, 32]

/-- The bytes of the closing brace of the format. -/
def fmt_close : CStr := [125]

/-- The text the format of `llama_get_model_info` expands to, before it is cut
to the size of the buffer. -/
def info_text (model_id : Int) (path : CStr) (n_vocab n_ctx ref_count : Int) : CStr :=
  fmt_model_id ++ fmt_d model_id ++ fmt_path ++ fmt_s path ++ fmt_n_vocab ++ fmt_d n_vocab ++
    fmt_n_ctx ++ fmt_d n_ctx ++ fmt_ref_count ++ fmt_d ref_count ++ fmt_close

/-- The function `snprintf(buf, size, ..)`: the memory of `buf` afterwards, the
first `size - 1` bytes of the expanded text followed by NUL. -/
def snprintf (size : Nat) (text : CStr) : CStr := text.take (size - 1) ++ [0]

/-- The function `llama_get_model_info`: the empty string for a rejected
handle, otherwise the record rendered into `char info[512]`.  The conversion
`%s` of a nil `lm->path` is undefined. -/
def llama_get_model_info {σ α : Type} (b : Backend σ α) (s : σ) (r : Registry)
    (model_id : Int) : Option CStr :=
  if model_id < 0 ∨ model_id ≥ r.nmodels then some (mkstring (some emptyLit))
  else
    match r.slot model_id with
    | none => none
    | some none => some (mkstring (some emptyLit))
    | some (some lm) =>
      if lm.model = none then some (mkstring (some emptyLit))
      else
        let n_vocab := b.n_vocab s lm.model
        let n_ctx := b.n_ctx s lm.ctx
        match lm.path with
        | none => none
        | some p =>
          some (mkstring (some (snprintf 512 (info_text model_id p n_vocab n_ctx lm.ref_count))))

/-- One `llama_load_model` call of a client: what the host returns during the
call, and the (non-nil) arguments. -/
structure LoadReq where
  env : LoadEnv
  path : CStr
  use_mmap : Int
  n_gpu_layers : Int
deriving DecidableEq, Repr

/-- A client issuing `llama_load_model` calls one after the other, with no
other call in between; collects the returned values. -/
def load_all : List LoadReq → Registry → Option (List Int × Registry)
  | [], r => some ([], r)
  | q :: qs, r =>
    match llama_load_model q.env r (some q.path) q.use_mmap q.n_gpu_layers with
    | none => none
    | some res =>
      match load_all qs res.reg with
      | none => none
      | some (rets, r1) => some (res.ret :: rets, r1)

/-- Host answers with which a load succeeds: `malloc`, the model load and the
context creation all return non-nil. -/
def LoadEnv.succeeds (env : LoadEnv) : Prop :=
  env.malloc_ok = true ∧ env.model ≠ none ∧ env.ctx ≠ none

/-! ## Concrete inputs used in the worked instances -/

/-- Host answers of a load in which everything succeeds. -/
def envGood : LoadEnv := { malloc_ok := true, model := some 7, ctx := some 9 }

/-- Host answers of a load in which the context cannot be created. -/
def envNoCtx : LoadEnv := { malloc_ok := true, model := some 7, ctx := none }

/-- The path `/m`. -/
def pathM : CStr := [47, 109]

/-- A load request that succeeds. -/
def reqGood : LoadReq := { env := envGood, path := pathM, use_mmap := 1, n_gpu_layers := 0 }

/-- The record stored by `reqGood`. -/
def lmGood : LlamaModel := { model := some 7, ctx := some 9, path := some pathM, ref_count := 1 }

/-- The registry after one successful load into the fresh registry. -/
def regOne : Registry := (llambo_cmodinit.store 0 (some lmGood)).setCount 1

/-- The registry after that model was freed again: slot 0 empty, `nmodels = 1`. -/
def regFreed : Registry := regOne.store 0 none

/-- A stub backend.  Its state is the number of `decode` calls made so far;
after `k + 1` of them the logits favour `script[k]` (and `eos` past the end of
the script); one token per prompt byte; `fails k` makes the decode issued
in state `k` fail. -/
def stub (script : List Nat) (eos : Nat) (text : Int → Option CStr) (fails : Nat → Bool) :
    Backend Nat Int where
  tokenize := fun _ _ t => (t.length, t.map Int.ofNat)
  decode := fun k _ _ _ => (if fails k = true then 1 else 0, k + 1)
  get_logits := fun k _ => some (fun i => if i = script.getD (k - 1) eos then 1 else 0)
  n_vocab := fun _ _ => 8
  token_is_eog := fun _ _ t => decide (t = eos)
  token_to_piece := fun _ _ t => text t
  n_ctx := fun _ _ => 2048

/-- The step of the sampling scan at index `i`. -/
def greedy_step {α : Type} [LinearOrder α] (logits : Nat → α) (acc : Nat × α) (i : Nat) :
    Nat × α :=
  if logits i > acc.2 then (i, logits i) else acc

/-- What the scan has established once the indices below `k` are processed. -/
def ScanInv {α : Type} [LinearOrder α] (logits : Nat → α) (k : Nat) (acc : Nat × α) : Prop :=
  acc.1 < k ∧ acc.2 = logits acc.1 ∧ (∀ j, j < k → logits j ≤ acc.2) ∧
    (∀ j, j < acc.1 → logits j < acc.2)

/-- Sample logits `3, 9, 9, 1`. -/
def logitsTie : Nat → Int := fun i => [3, 9, 9, 1].getD i 0

/-- The token the loop selects in native state `s`; `none` when the backend
has no logits. -/
def choice {σ α : Type} [LinearOrder α] (b : Backend σ α) (model ctx : Ptr) (s : σ) :
    Option Int :=
  (b.get_logits s ctx).map (fun logits => ((greedy logits (b.n_vocab s model)).1 : Int))

/-- The backend carries the loop through one complete pass per entry `(t, p)`
of the list, starting in state `s` at position `pos`: logits are there, the
greedy choice is `t`, `t` is not an end-of-generation token, its piece is `p`
(`none` for `nil`) and the decode of `t` succeeds.  After the last pass
`final` holds of the state and position reached. -/
def Passes {σ α : Type} [LinearOrder α] (b : Backend σ α) (model ctx : Ptr)
    (final : σ → Int → Prop) : σ → Int → List (Int × Option CStr) → Prop
  | s, pos, [] => final s pos
  | s, pos, (t, p) :: rest =>
    choice b model ctx s = some t ∧ b.token_is_eog s model t = false ∧
      b.token_to_piece s ctx t = p ∧ (b.decode s ctx [t] pos).1 = 0 ∧
      Passes b model ctx final (b.decode s ctx [t] pos).2 (pos + 1) rest

/-- In state `s` the greedy choice is an end-of-generation token. -/
def EogAt {σ α : Type} [LinearOrder α] (b : Backend σ α) (model ctx : Ptr) (s : σ)
    (_pos : Int) : Prop :=
  ∃ e, choice b model ctx s = some e ∧ b.token_is_eog s model e = true

/-- In state `s` the greedy choice is `t`, not an end-of-generation token, with
piece `p`, and the decode of `t` at position `pos` fails. -/
def DecodeFailsAt {σ α : Type} [LinearOrder α] (b : Backend σ α) (model ctx : Ptr) (t : Int)
    (p : Option CStr) (s : σ) (pos : Int) : Prop :=
  choice b model ctx s = some t ∧ b.token_is_eog s model t = false ∧
    b.token_to_piece s ctx t = p ∧ (b.decode s ctx [t] pos).1 ≠ 0

/-- The loop variables on entry to the loop, once the prompt `text` has been
tokenized and decoded. -/
def loop_entry {σ α : Type} (b : Backend σ α) (s : σ) (lm : LlamaModel) (text : CStr) :
    Gen σ :=
  { s := (b.decode s lm.ctx ((b.tokenize s lm.model text).2.take
      (b.tokenize s lm.model text).1.toNat) 0).2,
    n_past := 0 + (b.tokenize s lm.model text).1, n_gen := 0, result := [],
    calls := [Call.tokenize lm.model text,
      Call.decode_prompt lm.ctx ((b.tokenize s lm.model text).2.take
        (b.tokenize s lm.model text).1.toNat) 0] }

/-- The call `llama_infer(h, text, ..)` reaches the generation loop: `h` names
an occupied slot of the table whose context is non-nil, both buffers are
allocated, and the tokenization and the decode of the prompt succeed. -/
structure ReachesLoop {σ α : Type} (b : Backend σ α) (s : σ) (mem : InferAlloc)
    (r : Registry) (h : Int) (lm : LlamaModel) (text : CStr) : Prop where
  in_table : h < r.nmodels
  occupied : r.slot h = some (some lm)
  has_ctx : lm.ctx ≠ none
  tokens_ok : mem.tokens_ok = true
  result_ok : mem.result_ok = true
  tokenized : 0 ≤ (b.tokenize s lm.model text).1
  prompt_decoded : (b.decode s lm.ctx ((b.tokenize s lm.model text).2.take
    (b.tokenize s lm.model text).1.toNat) 0).1 = 0

/-- The loop variables after one complete pass that selected `t` with piece `p`. -/
def Gen.pass {σ α : Type} (b : Backend σ α) (ctx : Ptr) (st : Gen σ) (t : Int)
    (p : Option CStr) : Gen σ :=
  { s := (b.decode st.s ctx [t] st.n_past).2, n_past := st.n_past + 1, n_gen := st.n_gen + 1,
    result := append_piece st.result p,
    calls := st.calls ++ [Call.get_logits ctx, Call.token_to_piece ctx t,
      Call.decode_token ctx t st.n_past] }

/-- The loop variables after one complete pass per entry of the list. -/
def advance {σ α : Type} (b : Backend σ α) (ctx : Ptr) : Gen σ → List (Int × Option CStr) → Gen σ
  | st, [] => st
  | st, (t, p) :: rest => advance b ctx (Gen.pass b ctx st t p) rest

/-- The output buffer after the pieces were offered to it in order, each one
appended only if it fits. -/
def accumulate (pieces : List (Option CStr)) : CStr := pieces.foldl append_piece []

/-- Whether a call is a single-token decode of the loop. -/
def Call.isTokenDecode : Call → Bool
  | Call.decode_token _ _ _ => true
  | _ => false

/-- Whether a call is a request for logits. -/
def Call.isGetLogits : Call → Bool
  | Call.get_logits _ => true
  | _ => false

/-- Number of single-token decodes in a list of calls. -/
def tokenDecodes (calls : List Call) : Nat := calls.countP Call.isTokenDecode

/-- Display text of the stub tokens: 1, 2, 3 are `A`, `B`, `C`. -/
def textABC : Int → Option CStr := fun t =>
  if t = 1 then some [65] else if t = 2 then some [66] else if t = 3 then some [67] else none

/-- The stub that emits `A, B, C` and then the end-of-generation token 0. -/
def stubABC : Backend Nat Int := stub [1, 2, 3] 0 textABC (fun _ => false)

/-- Both buffers of `llama_infer` allocated. -/
def memGood : InferAlloc := { tokens_ok := true, result_ok := true }

/-- The prompt `hi`. -/
def promptHi : CStr := [104, 105]

/-- A piece of 8192 bytes. -/
def longPiece : CStr := List.replicate 8192 65

/-- Display text of a stub whose token 1 has a piece of 8192 bytes and whose
token 2 is `B`. -/
def textLong : Int → Option CStr := fun t =>
  if t = 1 then some longPiece else if t = 2 then some [66] else none

/-- The passes of `stubLong`: the long piece, then `B`. -/
def passesLong : List (Int × Option CStr) := [(1, some longPiece), (2, some [66])]

/-- The stub that emits the 8192-byte token, then `B`, then end of generation. -/
def stubLong : Backend Nat Int := stub [1, 2] 0 textLong (fun _ => false)

/-- Display text of a stub whose token 1 has the piece `A NUL B`. -/
def textNul : Int → Option CStr := fun t => if t = 1 then some [65, 0, 66] else none

/-- The stub that selects token 1 and then fails to decode it. -/
def stubNul : Backend Nat Int := stub [1] 0 textNul (fun k => decide (k = 1))

/-- The stub that selects `A`, decodes it, selects `B` and fails to decode it. -/
def stubFail : Backend Nat Int := stub [1, 2] 0 textABC (fun k => decide (k = 2))

/-- Whether a call is the decode of the prompt batch. -/
def Call.isPromptDecode : Call → Bool
  | Call.decode_prompt _ _ _ => true
  | _ => false

/-- A stub whose tokenizer reports an error; everything else as `stubABC`. -/
def stubNoTok : Backend Nat Int :=
  { stubABC with tokenize := fun _ _ _ => (-1, []) }

/-- The registry invariant: `nmodels` is within the table, the slots from
`nmodels` on are empty, and an occupied slot holds a non-nil model, a non-nil
context, the reference count 1 and a non-nil path. -/
structure Registry.Inv (r : Registry) : Prop where
  lower : 0 ≤ r.nmodels
  upper : r.nmodels ≤ 32
  trailing : ∀ i : Int, r.nmodels ≤ i → i < 32 → r.slot i = some none
  sound : ∀ (i : Int) (lm : LlamaModel), r.slot i = some (some lm) →
    lm.model ≠ none ∧ lm.ctx ≠ none ∧ lm.ref_count = 1
  has_path : ∀ (i : Int) (lm : LlamaModel), r.slot i = some (some lm) → lm.path ≠ none

/-- The registry states that `llambo_cmodinit` followed by any sequence of
`llama_load_model`, `llama_free_model` and `llambo_cmodcleanup` calls can
produce.  (`llama_tokenize`, `llama_infer` and `llama_get_model_info` never
assign `models[]` or `nmodels`.) -/
inductive Reachable : Registry → Prop
  | init : Reachable llambo_cmodinit
  | load {r : Registry} (env : LoadEnv) (path : Option CStr) (use_mmap n_gpu_layers : Int)
      (res : Ret) : Reachable r →
      llama_load_model env r path use_mmap n_gpu_layers = some res → Reachable res.reg
  | free {r : Registry} (h : Int) (res : Ret) : Reachable r →
      llama_free_model r h = some res → Reachable res.reg
  | cleanup {r : Registry} (r1 : Registry) (calls : List Call) : Reachable r →
      llambo_cmodcleanup r = some (r1, calls) → Reachable r1

/-- Number of occupied slots of the table. -/
def Registry.occupied (r : Registry) : Nat := r.models.countP Option.isSome

/-- The backend calls that tear down slot `i`: none for an empty slot. -/
def slot_teardown (r : Registry) (i : Nat) : List Call :=
  match r.slot i with
  | some (some lm) => teardown lm
  | _ => []

/-- The backend calls that tear down the slots `i, i+1, .., i+count-1`, in
index order. -/
def teardown_range (r : Registry) : Nat → Nat → List Call
  | 0, _ => []
  | count + 1, i => slot_teardown r i ++ teardown_range r count (i + 1)

/-- One call made by a client between `llambo_cmodinit` and `llambo_cmodcleanup`. -/
inductive Op where
  | load (env : LoadEnv) (path : Option CStr) (use_mmap n_gpu_layers : Int)
  | free (model_id : Int)
deriving DecidableEq, Repr

/-- The call, run on a registry. -/
def Op.exec : Op → Registry → Option Ret
  | Op.load env path use_mmap n_gpu_layers, r => llama_load_model env r path use_mmap n_gpu_layers
  | Op.free model_id, r => llama_free_model r model_id

/-- The handle handed out by the call: the return value of a load that did not
return -1, nothing otherwise. -/
def Op.handle : Op → Ret → List Int
  | Op.load _ _ _ _, res => if res.ret = -1 then [] else [res.ret]
  | Op.free _, _ => []

/-- A client making the calls one after the other: the handles handed out by
the successful loads, in order, and the registry at the end. -/
def run_ops : List Op → Registry → Option (List Int × Registry)
  | [], r => some ([], r)
  | op :: ops, r =>
    match op.exec r with
    | none => none
    | some res =>
      match run_ops ops res.reg with
      | none => none
      | some (hs, r1) => some (op.handle res ++ hs, r1)

/-- Thirty-two successful loads followed by the free of handle 0. -/
def opsFull : List Op :=
  List.replicate 32 (Op.load envGood (some pathM) 1 0) ++ [Op.free 0]

/-- The handles handed out by `opsFull`. -/
def hsFull : List Int := ((run_ops opsFull llambo_cmodinit).getD ([], llambo_cmodinit)).1

/-- The registry reached by `opsFull`. -/
def regFull : Registry := ((run_ops opsFull llambo_cmodinit).getD ([], llambo_cmodinit)).2

/-- The stub that emits the token with piece `A NUL B` and then the
end-of-generation token 0. -/
def stubNulEog : Backend Nat Int := stub [1] 0 textNul (fun _ => false)

/-- The position of a single-token decode, nothing for any other call. -/
def Call.decodePos : Call → Option Int
  | Call.decode_token _ _ n_past => some n_past
  | _ => none

/-- The positions at which the single-token decodes of a trace were
submitted, in order. -/
def decodePositions (calls : List Call) : List Int := calls.filterMap Call.decodePos

/-- The decodes of a prompt batch in a trace, in order. -/
def promptDecodes (calls : List Call) : List Call := calls.filter Call.isPromptDecode

/-- Two models loaded, `/m` twice: handles 0 and 1. -/
def regTwo : Registry := (regOne.store 1 (some lmGood)).setCount 2

theorem Registry.ext_of {r1 r2 : Registry} (hm : r1.models = r2.models)
    (hn : r1.nmodels = r2.nmodels) : r1 = r2 := by
  cases r1; cases r2; simp_all

theorem Registry.slot_store_same (r : Registry) (i : Int) (v : Option LlamaModel)
    (h0 : 0 ≤ i) (h1 : i < 32) : (r.store i.toNat v).slot i = some v := by
  have hlen := r.size_eq
  have hi : i.toNat < r.models.length := by omega
  simp [Registry.slot, Registry.store, h0, List.getElem?_set_self, hi]

theorem Registry.slot_setCount (r : Registry) (n i : Int) :
    (r.setCount n).slot i = r.slot i := rfl

theorem Registry.slot_lt (r : Registry) (i : Int) (v : Option LlamaModel)
    (h : r.slot i = some v) : 0 ≤ i ∧ i < 32 := by
  have hlen := r.size_eq
  unfold Registry.slot at h
  split at h
  · rename_i h0
    refine ⟨h0, ?_⟩
    have := (List.getElem?_eq_some.mp h).1
    omega
  · cases h

/-! ## Loading -/

theorem load_full (env : LoadEnv) (r : Registry) (path : Option CStr)
    (use_mmap n_gpu_layers : Int) (h : 32 ≤ r.nmodels) :
    llama_load_model env r path use_mmap n_gpu_layers = some ⟨-1, r, []⟩ := by
  unfold llama_load_model
  cases path with
  | none => rfl
  | some p => simp [h]

theorem load_ok (env : LoadEnv) (r : Registry) (p : CStr) (use_mmap n_gpu_layers : Int)
    (henv : env.succeeds) (h0 : 0 ≤ r.nmodels) (h1 : r.nmodels < 32) :
    ∃ res, llama_load_model env r (some p) use_mmap n_gpu_layers = some res ∧
      res.ret = r.nmodels ∧ res.reg.nmodels = r.nmodels + 1 ∧
      res.reg.slot r.nmodels =
        some (some { model := env.model, ctx := env.ctx, path := some p, ref_count := 1 }) := by
  obtain ⟨hm, hmodel, hctx⟩ := henv
  obtain ⟨m, hm1⟩ := Option.ne_none_iff_exists'.mp hmodel
  obtain ⟨c, hc1⟩ := Option.ne_none_iff_exists'.mp hctx
  have hnot : ¬ (32 ≤ r.nmodels) := by omega
  refine ⟨⟨r.nmodels,
    (r.store r.nmodels.toNat (some (LlamaModel.mk (some m) (some c) (some p) 1))).setCount
      (r.nmodels + 1),
    [Call.backend_init, Call.load_model_from_file p use_mmap n_gpu_layers,
      Call.new_context_with_model (some m)]⟩, ?_, rfl, rfl, ?_⟩
  · simp [llama_load_model, hnot, hm, hm1, hc1, h0]
  · rw [Registry.slot_setCount, Registry.slot_store_same r _ _ h0 h1, hm1, hc1]

theorem load_all_append (qs1 qs2 : List LoadReq) (r : Registry) :
    load_all (qs1 ++ qs2) r =
      match load_all qs1 r with
      | none => none
      | some (rets1, r1) =>
        match load_all qs2 r1 with
        | none => none
        | some (rets2, r2) => some (rets1 ++ rets2, r2) := by
  induction qs1 generalizing r with
  | nil =>
    simp only [List.nil_append, load_all]
    cases load_all qs2 r with
    | none => rfl
    | some x => rfl
  | cons q qs ih =>
    simp only [List.cons_append, load_all]
    cases llama_load_model q.env r (some q.path) q.use_mmap q.n_gpu_layers with
    | none => rfl
    | some res =>
      simp only [List.append_eq]
      rw [ih res.reg]
      cases load_all qs res.reg with
      | none => rfl
      | some x =>
        simp only []
        cases load_all qs2 x.2 with
        | none => rfl
        | some y => rfl

theorem load_all_ok (qs : List LoadReq) (r : Registry) (k : Nat)
    (hall : ∀ q ∈ qs, q.env.succeeds) (hk : r.nmodels = k) (hcap : k + qs.length ≤ 32) :
    ∃ r1, load_all qs r = some ((List.range' k qs.length).map Int.ofNat, r1) ∧
      r1.nmodels = k + qs.length := by
  induction qs generalizing r k with
  | nil => exact ⟨r, rfl, by simp [hk]⟩
  | cons q qs ih =>
    simp only [List.length_cons] at hcap
    obtain ⟨res, hres, hret, hn, _⟩ := load_ok q.env r q.path q.use_mmap q.n_gpu_layers
      (hall q (List.mem_cons_self _ _)) (by omega) (by omega)
    obtain ⟨r1, hr1, hn1⟩ := ih res.reg (k + 1)
      (fun x hx => hall x (List.mem_cons_of_mem _ hx)) (by rw [hn, hk]; push_cast; ring)
      (by omega)
    refine ⟨r1, ?_, ?_⟩
    · simp only [load_all, hres, hr1, List.length_cons, List.range'_succ, List.map_cons, hret, hk]
      rfl
    · rw [hn1]; simp only [List.length_cons]; push_cast; ring

theorem mkstring_emptyLit : mkstring (some emptyLit) = [] := by decide

/-! ## Freeing and describing -/

theorem free_invalid (r : Registry) (h : Int)
    (hinv : h < 0 ∨ r.nmodels ≤ h ∨ r.slot h = some none) :
    llama_free_model r h = some ⟨-1, r, []⟩ := by
  unfold llama_free_model
  by_cases hr : h < 0 ∨ h ≥ r.nmodels
  · rw [if_pos hr]
  · rw [if_neg hr]
    rcases hinv with h1 | h1 | h1
    · exact absurd (Or.inl h1) hr
    · exact absurd (Or.inr h1) hr
    · rw [h1]

theorem free_last_ref (r : Registry) (h : Int) (lm : LlamaModel)
    (hlt : h < r.nmodels) (hslot : r.slot h = some (some lm)) (hrc : lm.ref_count = 1) :
    llama_free_model r h =
      some ⟨0, r.store h.toNat none, teardown { lm with ref_count := lm.ref_count - 1 }⟩ := by
  have h0 := (Registry.slot_lt r h _ hslot).1
  have hr : ¬ (h < 0 ∨ h ≥ r.nmodels) := by omega
  unfold llama_free_model
  rw [if_neg hr, hslot]
  simp [hrc]

theorem info_invalid {σ α : Type} (b : Backend σ α) (s : σ) (r : Registry) (h : Int)
    (hinv : h < 0 ∨ r.nmodels ≤ h ∨ r.slot h = some none) :
    llama_get_model_info b s r h = some [] := by
  unfold llama_get_model_info
  rw [mkstring_emptyLit]
  by_cases hr : h < 0 ∨ h ≥ r.nmodels
  · rw [if_pos hr]
  · rw [if_neg hr]
    rcases hinv with h1 | h1 | h1
    · exact absurd (Or.inl h1) hr
    · exact absurd (Or.inr h1) hr
    · rw [h1]

theorem infer_invalid {σ α : Type} [LinearOrder α] (b : Backend σ α) (s : σ)
    (mem : InferAlloc) (r : Registry) (h : Int) (prompt : Option CStr) (max_tokens : Int)
    (temperature : Float)
    (hinv : h < 0 ∨ r.nmodels ≤ h ∨ prompt = none ∨ r.slot h = some none) :
    llama_infer b s mem r h prompt max_tokens temperature = some ⟨[], s, []⟩ := by
  unfold llama_infer
  rw [mkstring_emptyLit]
  by_cases hr : h < 0 ∨ h ≥ r.nmodels ∨ prompt = none
  · rw [if_pos hr]
  · rw [if_neg hr]
    rcases hinv with h1 | h1 | h1 | h1
    · exact absurd (Or.inl h1) hr
    · exact absurd (Or.inr (Or.inl h1)) hr
    · exact absurd (Or.inr (Or.inr h1)) hr
    · rw [h1]

/-! ## Rendering of the model record -/

theorem mkstring_eq_takeWhile (bytes : CStr) :
    mkstring (some bytes) = bytes.takeWhile (fun c => c != 0) := by
  simp only [mkstring, strlen]
  induction bytes with
  | nil => rfl
  | cons c cs ih =>
    by_cases hc : (c != 0) = true
    · simp only [List.takeWhile_cons, hc, if_true, List.length_cons, List.take_succ_cons, ih]
    · simp only [List.takeWhile_cons, hc, if_false, List.length_nil, List.take_zero]
      simp

theorem mkstring_terminated (acc : CStr) (hz : ∀ c ∈ acc, c ≠ 0) :
    mkstring (some (acc ++ [0])) = acc := by
  rw [mkstring_eq_takeWhile, List.takeWhile_append_of_pos]
  · simp
  · intro c hc
    simpa using hz c hc

theorem dec_digits_ne_zero (fuel n : Nat) (acc : CStr) (hacc : ∀ c ∈ acc, c ≠ 0) :
    ∀ c ∈ dec_digits fuel n acc, c ≠ 0 := by
  induction fuel generalizing n acc with
  | zero => exact hacc
  | succ f ih =>
    rw [dec_digits]
    split_ifs
    · intro c hc
      rcases List.mem_cons.mp hc with h1 | h1
      · omega
      · exact hacc c h1
    · apply ih
      intro c hc
      rcases List.mem_cons.mp hc with h1 | h1
      · omega
      · exact hacc c h1

theorem fmt_d_ne_zero (i : Int) : ∀ c ∈ fmt_d i, c ≠ 0 := by
  have hd := dec_digits_ne_zero (i.natAbs + 1) i.natAbs [] (by simp)
  unfold fmt_d
  split_ifs
  · intro c hc
    rcases List.mem_cons.mp hc with h1 | h1
    · omega
    · exact hd c h1
  · exact hd

theorem fmt_s_ne_zero (p : CStr) : ∀ c ∈ fmt_s p, c ≠ 0 := by
  intro c hc
  have := List.mem_takeWhile_imp hc
  simpa using this

theorem info_text_ne_zero (model_id : Int) (path : CStr) (n_vocab n_ctx ref_count : Int) :
    ∀ c ∈ info_text model_id path n_vocab n_ctx ref_count, c ≠ 0 := by
  intro c hc
  simp only [info_text, List.mem_append] at hc
  rcases hc with ((((((((((h | h) | h) | h) | h) | h) | h) | h) | h) | h) | h)
  · revert c; decide
  · exact fmt_d_ne_zero _ c h
  · revert c; decide
  · exact fmt_s_ne_zero _ c h
  · revert c; decide
  · exact fmt_d_ne_zero _ c h
  · revert c; decide
  · exact fmt_d_ne_zero _ c h
  · revert c; decide
  · exact fmt_d_ne_zero _ c h
  · revert c; decide

/-- What `mkstring` makes of the buffer written by `snprintf`: the first
`size - 1` bytes of a text that holds no NUL. -/
theorem mkstring_snprintf (size : Nat) (text : CStr) (hz : ∀ c ∈ text, c ≠ 0) :
    mkstring (some (snprintf size text)) = text.take (size - 1) := by
  unfold snprintf
  apply mkstring_terminated
  intro c hc
  exact hz c (List.mem_of_mem_take hc)

theorem info_text_head (model_id : Int) (path : CStr) (n_vocab n_ctx ref_count : Int) :
    ∃ rest, info_text model_id path n_vocab n_ctx ref_count = 123 :: rest :=
  ⟨_, rfl⟩

theorem info_occupied {σ α : Type} (b : Backend σ α) (s : σ) (r : Registry) (h : Int)
    (lm : LlamaModel) (p : CStr) (hlt : h < r.nmodels) (hslot : r.slot h = some (some lm))
    (hmodel : lm.model ≠ none) (hpath : lm.path = some p) :
    llama_get_model_info b s r h =
        some ((info_text h p (b.n_vocab s lm.model) (b.n_ctx s lm.ctx) lm.ref_count).take 511) ∧
      (info_text h p (b.n_vocab s lm.model) (b.n_ctx s lm.ctx) lm.ref_count).take 511 ≠ [] := by
  have h0 := (Registry.slot_lt r h _ hslot).1
  have hr : ¬ (h < 0 ∨ h ≥ r.nmodels) := by omega
  constructor
  · unfold llama_get_model_info
    rw [if_neg hr, hslot]
    simp only [hmodel, if_false, hpath]
    rw [mkstring_snprintf 512 _ (info_text_ne_zero _ _ _ _ _)]
  · obtain ⟨rest, hrest⟩ := info_text_head h p (b.n_vocab s lm.model) (b.n_ctx s lm.ctx)
      lm.ref_count
    rw [hrest]
    simp

/-! ## Claims about the registry -/

/-- C1: from the freshly initialised registry, with hosts on which every load
succeeds, 33 successive `llama_load_model` calls with a non-nil path return
0, 1, ..., 31 and then -1, and the 33rd call leaves the registry as the 32nd
left it. -/
theorem load_fills_exactly_32 (qs : List LoadReq) (hlen : qs.length = 33)
    (hall : ∀ q ∈ qs, q.env.succeeds) :
    ∃ r32, load_all (qs.take 32) llambo_cmodinit = some ((List.range 32).map Int.ofNat, r32) ∧
      (∀ q ∈ qs.drop 32,
        llama_load_model q.env r32 (some q.path) q.use_mmap q.n_gpu_layers =
          some ⟨-1, r32, []⟩) ∧
      load_all qs llambo_cmodinit = some ((List.range 32).map Int.ofNat ++ [-1], r32) := by
  have htake : (qs.take 32).length = 32 := by simp [hlen]
  obtain ⟨r32, h32, hn⟩ := load_all_ok (qs.take 32) llambo_cmodinit 0
    (fun q hq => hall q (List.mem_of_mem_take hq)) rfl (by omega)
  rw [htake] at h32 hn
  have hfull : (32 : Int) ≤ r32.nmodels := by rw [hn]; norm_num
  have hlast : ∀ q : LoadReq,
      llama_load_model q.env r32 (some q.path) q.use_mmap q.n_gpu_layers =
        some ⟨-1, r32, []⟩ := fun q => load_full _ _ _ _ _ hfull
  have hdrop : (qs.drop 32).length = 1 := by simp [hlen]
  obtain ⟨q33, hq33⟩ := List.length_eq_one.mp hdrop
  refine ⟨r32, ?_, fun q _ => hlast q, ?_⟩
  · rw [h32, List.range_eq_range']
  · have hsplit : qs = qs.take 32 ++ [q33] := by rw [← hq33, List.take_append_drop]
    rw [hsplit, load_all_append, h32]
    simp only [load_all, hlast q33, List.range_eq_range']

/-- C1, worked instance: 33 identical succeeding requests. -/
theorem load_fills_exactly_32_witness :
    ∃ r32, load_all ((List.replicate 33 reqGood).take 32) llambo_cmodinit =
        some ((List.range 32).map Int.ofNat, r32) ∧
      (∀ q ∈ (List.replicate 33 reqGood).drop 32,
        llama_load_model q.env r32 (some q.path) q.use_mmap q.n_gpu_layers =
          some ⟨-1, r32, []⟩) ∧
      load_all (List.replicate 33 reqGood) llambo_cmodinit =
        some ((List.range 32).map Int.ofNat ++ [-1], r32) :=
  load_fills_exactly_32 (List.replicate 33 reqGood) (by simp)
    (fun q hq => by
      rw [List.eq_of_mem_replicate hq]
      exact ⟨rfl, by decide, by decide⟩)

/-- C3: for a handle `h` of the table (`h < nmodels`) whose slot holds a model
with `ref_count = 1`, `llama_free_model h` returns 0 and empties slot `h`; afterwards
`llama_get_model_info h` and `llama_infer h` return the invalid-handle result
(the empty string) whatever the other arguments, and a second
`llama_free_model h` returns -1. -/
theorem free_then_invalid (r : Registry) (h : Int) (lm : LlamaModel)
    (hlt : h < r.nmodels) (hslot : r.slot h = some (some lm)) (hrc : lm.ref_count = 1) :
    ∃ res, llama_free_model r h = some res ∧ res.ret = 0 ∧ res.reg.slot h = some none ∧
      (∀ (σ α : Type) (b : Backend σ α) (s : σ),
        llama_get_model_info b s res.reg h = some []) ∧
      (∀ (σ α : Type) (_ : LinearOrder α) (b : Backend σ α) (s : σ) (mem : InferAlloc)
        (prompt : Option CStr) (max_tokens : Int) (temperature : Float),
        llama_infer b s mem res.reg h prompt max_tokens temperature = some ⟨[], s, []⟩) ∧
      (∃ res2, llama_free_model res.reg h = some res2 ∧ res2.ret = -1) := by
  obtain ⟨h0, h32⟩ := Registry.slot_lt r h _ hslot
  have hempty : (r.store h.toNat none).slot h = some none :=
    Registry.slot_store_same r h none h0 h32
  refine ⟨_, free_last_ref r h lm hlt hslot hrc, rfl, hempty, ?_, ?_, ?_⟩
  · intro σ α b s
    exact info_invalid b s _ h (Or.inr (Or.inr hempty))
  · intro σ α _ b s mem prompt max_tokens temperature
    exact infer_invalid b s mem _ h prompt max_tokens temperature
      (Or.inr (Or.inr (Or.inr hempty)))
  · exact ⟨_, free_invalid _ h (Or.inr (Or.inr hempty)), rfl⟩

/-- C3, worked instance: freeing handle 0 of the registry holding one model. -/
theorem free_then_invalid_witness :
    ∃ res, llama_free_model regOne 0 = some res ∧ res.ret = 0 ∧ res.reg.slot 0 = some none ∧
      (∀ (σ α : Type) (b : Backend σ α) (s : σ),
        llama_get_model_info b s res.reg 0 = some []) ∧
      (∀ (σ α : Type) (_ : LinearOrder α) (b : Backend σ α) (s : σ) (mem : InferAlloc)
        (prompt : Option CStr) (max_tokens : Int) (temperature : Float),
        llama_infer b s mem res.reg 0 prompt max_tokens temperature = some ⟨[], s, []⟩) ∧
      (∃ res2, llama_free_model res.reg 0 = some res2 ∧ res2.ret = -1) :=
  free_then_invalid regOne 0 lmGood (by decide) (by decide) (by decide)

/-- C4: for a handle that is negative, or at least `nmodels`, or names an
empty slot, `llama_free_model` returns -1 and the registry (every slot and
`nmodels`) is the same after the call as before; no backend call is made. -/
theorem free_invalid_handle_unchanged (r : Registry) (h : Int)
    (hinv : h < 0 ∨ r.nmodels ≤ h ∨ r.slot h = some none) :
    llama_free_model r h = some ⟨-1, r, []⟩ :=
  free_invalid r h hinv

/-- C4, worked instance: an already-freed slot. -/
theorem free_invalid_handle_unchanged_witness :
    llama_free_model regFreed 0 = some ⟨-1, regFreed, []⟩ :=
  free_invalid_handle_unchanged regFreed 0 (Or.inr (Or.inr (by decide)))

/-- C8: when the backend fails to load the model or fails to create the
context, `llama_load_model` returns -1 and the registry is the one before the
call. -/
theorem load_backend_failure_unchanged (env : LoadEnv) (r : Registry) (path : Option CStr)
    (use_mmap n_gpu_layers : Int) (hfail : env.model = none ∨ env.ctx = none) :
    ∃ calls, llama_load_model env r path use_mmap n_gpu_layers = some ⟨-1, r, calls⟩ := by
  unfold llama_load_model
  cases path with
  | none => exact ⟨_, rfl⟩
  | some p =>
    simp only []
    by_cases hcap : r.nmodels ≥ 32
    · rw [if_pos hcap]; exact ⟨_, rfl⟩
    · rw [if_neg hcap]
      by_cases hm : env.malloc_ok = false
      · rw [if_pos hm]; exact ⟨_, rfl⟩
      · rw [if_neg hm]
        cases hmodel : env.model with
        | none => exact ⟨_, rfl⟩
        | some m =>
          cases hctx : env.ctx with
          | none => exact ⟨_, rfl⟩
          | some c =>
            rcases hfail with hf | hf
            · rw [hmodel] at hf; cases hf
            · rw [hctx] at hf; cases hf

/-- C8, worked instance: context creation fails on a registry holding one model. -/
theorem load_backend_failure_unchanged_witness :
    ∃ calls, llama_load_model envNoCtx regOne (some pathM) 1 0 = some ⟨-1, regOne, calls⟩ :=
  load_backend_failure_unchanged envNoCtx regOne (some pathM) 1 0 (Or.inr rfl)

/-! ## The sampling scan -/

theorem greedy_eq_foldl {α : Type} [LinearOrder α] (logits : Nat → α) (n_vocab : Int) :
    greedy logits n_vocab =
      (List.range' 1 (n_vocab.toNat - 1)).foldl (greedy_step logits) (0, logits 0) := rfl

theorem scanInv_step {α : Type} [LinearOrder α] (logits : Nat → α) (k : Nat) (acc : Nat × α)
    (h : ScanInv logits k acc) : ScanInv logits (k + 1) (greedy_step logits acc k) := by
  obtain ⟨h1, h2, h3, h4⟩ := h
  unfold greedy_step
  by_cases hgt : logits k > acc.2
  · rw [if_pos hgt]
    refine ⟨Nat.lt_succ_self k, rfl, ?_, ?_⟩
    · intro j hj
      rcases Nat.lt_succ_iff_lt_or_eq.mp hj with hlt | heq
      · exact le_of_lt (lt_of_le_of_lt (h3 j hlt) hgt)
      · rw [heq]
    · intro j hj
      exact lt_of_le_of_lt (h3 j hj) hgt
  · rw [if_neg hgt]
    refine ⟨Nat.lt_succ_of_lt h1, h2, ?_, h4⟩
    intro j hj
    rcases Nat.lt_succ_iff_lt_or_eq.mp hj with hlt | heq
    · exact h3 j hlt
    · rw [heq]; exact not_lt.mp hgt

theorem scanInv_foldl {α : Type} [LinearOrder α] (logits : Nat → α) (n k : Nat)
    (acc : Nat × α) (h : ScanInv logits k acc) :
    ScanInv logits (k + n) ((List.range' k n).foldl (greedy_step logits) acc) := by
  induction n generalizing k acc with
  | zero => simpa using h
  | succ n ih =>
    rw [List.range'_succ, List.foldl_cons]
    have := ih (k + 1) _ (scanInv_step logits k acc h)
    rwa [Nat.add_assoc, Nat.add_comm 1 n] at this

theorem scanInv_greedy {α : Type} [LinearOrder α] (logits : Nat → α) (n_vocab : Int)
    (hn : 1 ≤ n_vocab) : ScanInv logits n_vocab.toNat (greedy logits n_vocab) := by
  have h0 : ScanInv logits 1 (0, logits 0) := by
    refine ⟨Nat.zero_lt_one, rfl, ?_, ?_⟩
    · intro j hj
      have : j = 0 := by omega
      rw [this]
    · intro j hj
      exact absurd hj (Nat.not_lt_zero j)
  have := scanInv_foldl logits (n_vocab.toNat - 1) 1 _ h0
  rw [greedy_eq_foldl]
  have hk : 1 + (n_vocab.toNat - 1) = n_vocab.toNat := by omega
  rwa [hk] at this

/-- C5: for logits over a linear order and `n_vocab >= 1`, the token chosen by
the sampling scan lies in `[0, n_vocab)`, its logit is at least every logit
in `[0, n_vocab)`, and it is the smallest index with that property: an argmax,
the lowest one among equal maxima. -/
theorem greedy_is_first_argmax {α : Type} [LinearOrder α] (logits : Nat → α)
    (n_vocab : Int) (hn : 1 ≤ n_vocab) :
    ((greedy logits n_vocab).1 : Int) < n_vocab ∧
      (∀ j : Nat, (j : Int) < n_vocab → logits j ≤ logits (greedy logits n_vocab).1) ∧
      (∀ i : Nat, (i : Int) < n_vocab →
        (∀ j : Nat, (j : Int) < n_vocab → logits j ≤ logits i) →
        (greedy logits n_vocab).1 ≤ i) := by
  obtain ⟨h1, h2, h3, h4⟩ := scanInv_greedy logits n_vocab hn
  refine ⟨by omega, ?_, ?_⟩
  · intro j hj
    rw [← h2]
    exact h3 j (by omega)
  · intro i hi hmax
    by_contra hlt
    have hlt1 : i < (greedy logits n_vocab).1 := Nat.lt_of_not_le hlt
    have hi1 := h4 i hlt1
    rw [h2] at hi1
    exact absurd (hmax _ (by omega)) (not_le.mpr hi1)

/-- C5, worked instance: on the logits `3, 9, 9, 1` the scan picks index 1, the
first of the two maxima. -/
theorem greedy_is_first_argmax_witness :
    (greedy logitsTie 4).1 = 1 ∧
      (((greedy logitsTie 4).1 : Int) < 4 ∧
      (∀ j : Nat, (j : Int) < 4 → logitsTie j ≤ logitsTie (greedy logitsTie 4).1) ∧
      (∀ i : Nat, (i : Int) < 4 →
        (∀ j : Nat, (j : Int) < 4 → logitsTie j ≤ logitsTie i) →
        (greedy logitsTie 4).1 ≤ i)) :=
  ⟨by decide, greedy_is_first_argmax logitsTie 4 (by decide)⟩

/-! ## The generation loop -/

theorem infer_iter_pass {σ α : Type} [LinearOrder α] (b : Backend σ α) (model ctx : Ptr)
    (st : Gen σ) (t : Int) (p : Option CStr)
    (hc : choice b model ctx st.s = some t) (he : b.token_is_eog st.s model t = false)
    (hp : b.token_to_piece st.s ctx t = p) (hd : (b.decode st.s ctx [t] st.n_past).1 = 0) :
    infer_iter b model ctx st = (Gen.pass b ctx st t p, true) := by
  unfold choice at hc
  cases hl : b.get_logits st.s ctx with
  | none => rw [hl] at hc; cases hc
  | some logits =>
    rw [hl, Option.map_some', Option.some.injEq] at hc
    simp only [infer_iter, hl, hc, he, hp, hd, Gen.pass]
    simp

theorem infer_iter_eog {σ α : Type} [LinearOrder α] (b : Backend σ α) (model ctx : Ptr)
    (st : Gen σ) (t : Int)
    (hc : choice b model ctx st.s = some t) (he : b.token_is_eog st.s model t = true) :
    infer_iter b model ctx st = ({ st with calls := st.calls ++ [Call.get_logits ctx] }, false) := by
  unfold choice at hc
  cases hl : b.get_logits st.s ctx with
  | none => rw [hl] at hc; cases hc
  | some logits =>
    rw [hl, Option.map_some', Option.some.injEq] at hc
    simp only [infer_iter, hl, hc, he]
    simp

theorem infer_iter_decode_fails {σ α : Type} [LinearOrder α] (b : Backend σ α)
    (model ctx : Ptr) (st : Gen σ) (t : Int) (p : Option CStr)
    (hc : choice b model ctx st.s = some t) (he : b.token_is_eog st.s model t = false)
    (hp : b.token_to_piece st.s ctx t = p) (hd : (b.decode st.s ctx [t] st.n_past).1 ≠ 0) :
    infer_iter b model ctx st =
      ({ s := (b.decode st.s ctx [t] st.n_past).2, n_past := st.n_past, n_gen := st.n_gen,
         result := append_piece st.result p,
         calls := st.calls ++ [Call.get_logits ctx, Call.token_to_piece ctx t,
           Call.decode_token ctx t st.n_past] }, false) := by
  unfold choice at hc
  cases hl : b.get_logits st.s ctx with
  | none => rw [hl] at hc; cases hc
  | some logits =>
    rw [hl, Option.map_some', Option.some.injEq] at hc
    simp only [infer_iter, hl, hc, he, hp]
    simp [hd]

theorem advance_n_gen {σ α : Type} (b : Backend σ α) (ctx : Ptr)
    (ts : List (Int × Option CStr)) (st : Gen σ) :
    (advance b ctx st ts).n_gen = st.n_gen + ts.length := by
  induction ts generalizing st with
  | nil => simp [advance]
  | cons x rest ih =>
    obtain ⟨t, p⟩ := x
    rw [advance, ih, Gen.pass, List.length_cons]
    push_cast; ring

theorem advance_n_past {σ α : Type} (b : Backend σ α) (ctx : Ptr)
    (ts : List (Int × Option CStr)) (st : Gen σ) :
    (advance b ctx st ts).n_past = st.n_past + ts.length := by
  induction ts generalizing st with
  | nil => simp [advance]
  | cons x rest ih =>
    obtain ⟨t, p⟩ := x
    rw [advance, ih, Gen.pass, List.length_cons]
    push_cast; ring

theorem advance_result {σ α : Type} (b : Backend σ α) (ctx : Ptr)
    (ts : List (Int × Option CStr)) (st : Gen σ) :
    (advance b ctx st ts).result = (ts.map Prod.snd).foldl append_piece st.result := by
  induction ts generalizing st with
  | nil => rfl
  | cons x rest ih =>
    obtain ⟨t, p⟩ := x
    rw [advance, ih]
    rfl

theorem advance_tokenDecodes {σ α : Type} (b : Backend σ α) (ctx : Ptr)
    (ts : List (Int × Option CStr)) (st : Gen σ) :
    tokenDecodes (advance b ctx st ts).calls = tokenDecodes st.calls + ts.length := by
  induction ts generalizing st with
  | nil => rfl
  | cons x rest ih =>
    obtain ⟨t, p⟩ := x
    rw [advance, ih, List.length_cons]
    simp only [Gen.pass, tokenDecodes, List.countP_append, List.countP_cons, List.countP_nil,
      Call.isTokenDecode]
    simp
    omega

theorem infer_loop_advance {σ α : Type} [LinearOrder α] (b : Backend σ α) (model ctx : Ptr)
    (final : σ → Int → Prop) (max_tokens : Int) (ts : List (Int × Option CStr)) (fuel : Nat)
    (st : Gen σ) (hp : Passes b model ctx final st.s st.n_past ts)
    (hbudget : st.n_gen + ts.length ≤ max_tokens) :
    infer_loop b model ctx max_tokens (ts.length + fuel) st =
        infer_loop b model ctx max_tokens fuel (advance b ctx st ts) ∧
      final (advance b ctx st ts).s (advance b ctx st ts).n_past := by
  induction ts generalizing st with
  | nil => exact ⟨by simp [advance], hp⟩
  | cons x rest ih =>
    obtain ⟨t, p⟩ := x
    obtain ⟨hc, he, hpiece, hd, hrest⟩ := hp
    simp only [List.length_cons] at hbudget
    push_cast at hbudget
    have hlt : st.n_gen < max_tokens := by omega
    have hfuel : ((t, p) :: rest).length + fuel = (rest.length + fuel) + 1 := by
      simp only [List.length_cons]; omega
    rw [hfuel, infer_loop, if_pos hlt, infer_iter_pass b model ctx st t p hc he hpiece hd]
    simp only [if_true]
    rw [advance]
    apply ih
    · exact hrest
    · simp only [Gen.pass]; omega

theorem infer_iter_continues {σ α : Type} [LinearOrder α] (b : Backend σ α)
    (model ctx : Ptr) (st : Gen σ) (hcont : (infer_iter b model ctx st).2 = true) :
    (infer_iter b model ctx st).1.n_gen = st.n_gen + 1 := by
  unfold infer_iter at hcont ⊢
  cases hl : b.get_logits st.s ctx with
  | none => simp [hl] at hcont
  | some logits =>
    simp only [hl] at hcont ⊢
    split_ifs at hcont ⊢
    all_goals simp_all

/-- The bound on the number of passes used by `llama_infer` never cuts the loop
short: any larger bound gives the same final state. -/
theorem infer_loop_fuel {σ α : Type} [LinearOrder α] (b : Backend σ α) (model ctx : Ptr)
    (max_tokens : Int) (fuel extra : Nat) (st : Gen σ)
    (hfuel : (max_tokens - st.n_gen).toNat ≤ fuel) :
    infer_loop b model ctx max_tokens (fuel + extra) st =
      infer_loop b model ctx max_tokens fuel st := by
  induction fuel generalizing st with
  | zero =>
    have hge : ¬ (st.n_gen < max_tokens) := by omega
    cases extra with
    | zero => rfl
    | succ e =>
      rw [Nat.zero_add, infer_loop, infer_loop, if_neg hge]
  | succ f ih =>
    rw [Nat.add_right_comm, infer_loop, infer_loop]
    by_cases hlt : st.n_gen < max_tokens
    · rw [if_pos hlt, if_pos hlt]
      by_cases hcont : (infer_iter b model ctx st).2 = true
      · simp only [hcont, if_true]
        apply ih
        rw [infer_iter_continues b model ctx st hcont]
        omega
      · simp [hcont]
    · rw [if_neg hlt, if_neg hlt]

theorem infer_iter_calls {σ α : Type} [LinearOrder α] (b : Backend σ α) (model ctx : Ptr)
    (st : Gen σ) : ∃ more, (infer_iter b model ctx st).1.calls = st.calls ++ more := by
  unfold infer_iter
  cases b.get_logits st.s ctx with
  | none => exact ⟨_, rfl⟩
  | some logits =>
    simp only []
    split_ifs
    all_goals exact ⟨_, rfl⟩

theorem infer_loop_calls {σ α : Type} [LinearOrder α] (b : Backend σ α) (model ctx : Ptr)
    (max_tokens : Int) (fuel : Nat) (st : Gen σ) :
    ∃ more, (infer_loop b model ctx max_tokens fuel st).calls = st.calls ++ more := by
  induction fuel generalizing st with
  | zero => exact ⟨[], by simp [infer_loop]⟩
  | succ f ih =>
    rw [infer_loop]
    by_cases hlt : st.n_gen < max_tokens
    · rw [if_pos hlt]
      obtain ⟨m1, h1⟩ := infer_iter_calls b model ctx st
      by_cases hcont : (infer_iter b model ctx st).2 = true
      · obtain ⟨m2, h2⟩ := ih (infer_iter b model ctx st).1
        refine ⟨m1 ++ m2, ?_⟩
        simp only [hcont, if_true]
        rw [h2, h1, List.append_assoc]
      · refine ⟨m1, ?_⟩
        simp only [hcont]
        simpa using h1
    · rw [if_neg hlt]
      exact ⟨[], by simp⟩

theorem infer_loop_calls_ne_nil {σ α : Type} [LinearOrder α] (b : Backend σ α)
    (model ctx : Ptr) (max_tokens : Int) (fuel : Nat) (st : Gen σ) (hne : st.calls ≠ []) :
    (infer_loop b model ctx max_tokens fuel st).calls ≠ [] := by
  obtain ⟨more, hm⟩ := infer_loop_calls b model ctx max_tokens fuel st
  rw [hm]
  simp [hne]

theorem Registry.slot_defined (r : Registry) (i : Int) (h0 : 0 ≤ i) (h1 : i < 32) :
    ∃ v, r.slot i = some v := by
  have hlen := r.size_eq
  have hi : i.toNat < r.models.length := by omega
  refine ⟨r.models[i.toNat], ?_⟩
  simp [Registry.slot, h0, List.getElem?_eq_getElem hi]

theorem infer_reaches_loop {σ α : Type} [LinearOrder α] (b : Backend σ α) (s : σ)
    (mem : InferAlloc) (r : Registry) (h : Int) (lm : LlamaModel) (text : CStr)
    (max_tokens : Int) (temperature : Float) (hready : ReachesLoop b s mem r h lm text) :
    llama_infer b s mem r h (some text) max_tokens temperature =
      some ⟨mkstring (some ((infer_loop b lm.model lm.ctx max_tokens max_tokens.toNat
          (loop_entry b s lm text)).result ++ [0])),
        (infer_loop b lm.model lm.ctx max_tokens max_tokens.toNat (loop_entry b s lm text)).s,
        (infer_loop b lm.model lm.ctx max_tokens max_tokens.toNat
          (loop_entry b s lm text)).calls⟩ := by
  obtain ⟨hlt, hslot, hctx, hm1, hm2, htok, hdec⟩ := hready
  have h0 := (Registry.slot_lt r h _ hslot).1
  have hr : ¬ (h < 0 ∨ h ≥ r.nmodels ∨ some text = none) := by
    simp only [reduceCtorEq, or_false]; omega
  have htok1 : ¬ ((b.tokenize s lm.model text).1 < 0) := by omega
  unfold llama_infer
  rw [if_neg hr, hslot]
  simp only [hctx, hm1, hm2, if_false, Option.getD_some, htok1, hdec, ne_eq, not_true_eq_false,
    Bool.true_eq_false, loop_entry]

theorem foldl_append_piece_fits (ps : List CStr) (acc : CStr)
    (hfit : acc.length + ps.flatten.length < 8192) :
    (ps.map some).foldl append_piece acc = acc ++ ps.flatten := by
  induction ps generalizing acc with
  | nil => simp
  | cons p rest ih =>
    simp only [List.flatten_cons, List.length_append] at hfit
    have h1 : acc.length + p.length < 8192 := by omega
    simp only [List.map_cons, List.foldl_cons, append_piece, if_pos h1, List.flatten_cons]
    rw [ih (acc ++ p) (by simp only [List.length_append]; omega), List.append_assoc]

theorem infer_loop_eog {σ α : Type} [LinearOrder α] (b : Backend σ α) (model ctx : Ptr)
    (max_tokens : Int) (fuel : Nat) (st : Gen σ) (hlt : st.n_gen < max_tokens)
    (hend : EogAt b model ctx st.s st.n_past) :
    infer_loop b model ctx max_tokens (fuel + 1) st =
      { st with calls := st.calls ++ [Call.get_logits ctx] } := by
  obtain ⟨e, hc, he⟩ := hend
  rw [infer_loop, if_pos hlt, infer_iter_eog b model ctx st e hc he]
  simp

theorem infer_loop_decode_fails {σ α : Type} [LinearOrder α] (b : Backend σ α)
    (model ctx : Ptr) (max_tokens : Int) (fuel : Nat) (st : Gen σ) (t : Int)
    (p : Option CStr) (hlt : st.n_gen < max_tokens)
    (hend : DecodeFailsAt b model ctx t p st.s st.n_past) :
    infer_loop b model ctx max_tokens (fuel + 1) st =
      { s := (b.decode st.s ctx [t] st.n_past).2, n_past := st.n_past, n_gen := st.n_gen,
        result := append_piece st.result p,
        calls := st.calls ++ [Call.get_logits ctx, Call.token_to_piece ctx t,
          Call.decode_token ctx t st.n_past] } := by
  obtain ⟨hc, he, hp, hd⟩ := hend
  rw [infer_loop, if_pos hlt, infer_iter_decode_fails b model ctx st t p hc he hp hd]
  simp

/-! ## Claims about generation -/

/-- C6: for a call that reaches the loop on a backend whose greedy choices are
the non-end-of-generation tokens `t1..tn` (every decode succeeding, pieces
non-nil, free of zero bytes, of total length under 8192) followed by an
end-of-generation token, and for every `max_tokens > n`, `llama_infer` returns
the concatenation of the pieces of `t1..tn` and makes exactly `n` single-token
decodes. -/
theorem infer_emits_until_eog {σ α : Type} [LinearOrder α] (b : Backend σ α) (s : σ)
    (mem : InferAlloc) (r : Registry) (h : Int) (lm : LlamaModel) (text : CStr)
    (max_tokens : Int) (temperature : Float) (ts : List (Int × CStr))
    (hready : ReachesLoop b s mem r h lm text)
    (hrun : Passes b lm.model lm.ctx (EogAt b lm.model lm.ctx) (loop_entry b s lm text).s
      (loop_entry b s lm text).n_past (ts.map (fun x => (x.1, some x.2))))
    (hzero : ∀ x ∈ ts, ∀ c ∈ x.2, c ≠ 0)
    (hfit : (ts.map Prod.snd).flatten.length < 8192)
    (hmax : (ts.length : Int) < max_tokens) :
    ∃ res, llama_infer b s mem r h (some text) max_tokens temperature = some res ∧
      res.text = (ts.map Prod.snd).flatten ∧ tokenDecodes res.calls = ts.length := by
  refine ⟨_, infer_reaches_loop b s mem r h lm text max_tokens temperature hready, ?_⟩
  have hlen : (ts.map (fun x : Int × CStr => (x.1, some x.2))).length = ts.length :=
    List.length_map _ _
  obtain ⟨f, hf⟩ : ∃ f, max_tokens.toNat = ts.length + (f + 1) := ⟨max_tokens.toNat - ts.length - 1, by omega⟩
  have hadv := infer_loop_advance b lm.model lm.ctx (EogAt b lm.model lm.ctx) max_tokens
    (ts.map (fun x => (x.1, some x.2))) (f + 1) (loop_entry b s lm text) hrun
    (by rw [hlen]; simp only [loop_entry]; omega)
  rw [hlen] at hadv
  have hgen := advance_n_gen b lm.ctx (ts.map (fun x => (x.1, some x.2))) (loop_entry b s lm text)
  rw [hlen] at hgen
  have hloop := infer_loop_eog b lm.model lm.ctx max_tokens f _
    (by rw [hgen]; simp only [loop_entry]; omega) hadv.2
  simp only [hf, hadv.1, hloop]
  have hres := advance_result b lm.ctx (ts.map (fun x => (x.1, some x.2)))
    (loop_entry b s lm text)
  have hmap : (ts.map (fun x : Int × CStr => (x.1, some x.2))).map Prod.snd =
      (ts.map Prod.snd).map some := by
    simp [List.map_map, Function.comp_def]
  rw [hmap] at hres
  have hres2 : (advance b lm.ctx (loop_entry b s lm text)
      (ts.map (fun x => (x.1, some x.2)))).result = (ts.map Prod.snd).flatten := by
    rw [hres]
    have := foldl_append_piece_fits (ts.map Prod.snd) [] (by simpa using hfit)
    simpa [loop_entry] using this
  constructor
  · rw [hres2]
    apply mkstring_terminated
    intro c hc
    obtain ⟨l, hl, hcl⟩ := List.mem_flatten.mp hc
    obtain ⟨x, hx, rfl⟩ := List.mem_map.mp hl
    exact hzero x hx c hcl
  · have hcount := advance_tokenDecodes b lm.ctx (ts.map (fun x => (x.1, some x.2)))
      (loop_entry b s lm text)
    rw [hlen] at hcount
    simp only [tokenDecodes, List.countP_append] at hcount ⊢
    rw [hcount]
    simp [loop_entry, Call.isTokenDecode]

/-- C6, worked instance: the stub emitting `A, B, C, EOS` with `max_tokens = 10`
yields `ABC` after exactly 3 single-token decodes. -/
theorem infer_emits_until_eog_witness :
    ∃ res, llama_infer stubABC 0 memGood regOne 0 (some promptHi) 10 0 = some res ∧
      res.text = [65, 66, 67] ∧ tokenDecodes res.calls = 3 :=
  infer_emits_until_eog stubABC 0 memGood regOne 0 lmGood promptHi 10 0
    [(1, [65]), (2, [66]), (3, [67])]
    ⟨by decide, by decide, by decide, rfl, rfl, by decide, by decide⟩
    ⟨by decide, rfl, rfl, rfl, by decide, rfl, rfl, rfl, by decide, rfl, rfl, rfl,
      ⟨0, by decide, rfl⟩⟩
    (by decide) (by decide) (by decide)

/-- C7: with `max_tokens = 0`, for every registry within its 32-entry table,
every handle, prompt, temperature, allocation outcome and backend,
`llama_infer` returns the empty string and makes neither a logits request nor
a single-token decode. -/
theorem infer_zero_budget {σ α : Type} [LinearOrder α] (b : Backend σ α) (s : σ)
    (mem : InferAlloc) (r : Registry) (h : Int) (prompt : Option CStr) (temperature : Float)
    (hwf : r.nmodels ≤ 32) :
    ∃ res, llama_infer b s mem r h prompt 0 temperature = some res ∧ res.text = [] ∧
      ∀ c ∈ res.calls, c.isGetLogits = false ∧ c.isTokenDecode = false := by
  by_cases hr : h < 0 ∨ h ≥ r.nmodels ∨ prompt = none
  · refine ⟨⟨[], s, []⟩, ?_, rfl, by simp⟩
    apply infer_invalid
    rcases hr with h1 | h1 | h1
    · exact Or.inl h1
    · exact Or.inr (Or.inl h1)
    · exact Or.inr (Or.inr (Or.inl h1))
  · have hr1 := hr
    simp only [not_or, not_lt, ge_iff_le, not_le] at hr1
    obtain ⟨v, hv⟩ := r.slot_defined h hr1.1 (by omega)
    unfold llama_infer
    rw [if_neg hr, hv]
    cases v with
    | none => exact ⟨_, rfl, mkstring_emptyLit, by simp⟩
    | some lm =>
      simp only [Int.toNat_zero, infer_loop, mkstring_emptyLit]
      split_ifs <;> refine ⟨_, rfl, ?_, ?_⟩ <;>
        simp [Call.isGetLogits, Call.isTokenDecode, mkstring_eq_takeWhile]

/-- C7, worked instance: a valid handle, `max_tokens = 0`. -/
theorem infer_zero_budget_witness :
    ∃ res, llama_infer stubABC 0 memGood regOne 0 (some promptHi) 0 0 = some res ∧
      res.text = [] ∧ ∀ c ∈ res.calls, c.isGetLogits = false ∧ c.isTokenDecode = false :=
  infer_zero_budget stubABC 0 memGood regOne 0 (some promptHi) 0 (by decide)

theorem infer_iter_result {σ α : Type} [LinearOrder α] (b : Backend σ α) (model ctx : Ptr)
    (st : Gen σ) (t : Int) (p : Option CStr)
    (hc : choice b model ctx st.s = some t) (he : b.token_is_eog st.s model t = false)
    (hp : b.token_to_piece st.s ctx t = p) :
    (infer_iter b model ctx st).1.result = append_piece st.result p ∧
      (infer_iter b model ctx st).1.calls = st.calls ++ [Call.get_logits ctx,
        Call.token_to_piece ctx t, Call.decode_token ctx t st.n_past] ∧
      (infer_iter b model ctx st).1.s = (b.decode st.s ctx [t] st.n_past).2 := by
  by_cases hd : (b.decode st.s ctx [t] st.n_past).1 = 0
  · rw [infer_iter_pass b model ctx st t p hc he hp hd]
    exact ⟨rfl, rfl, rfl⟩
  · rw [infer_iter_decode_fails b model ctx st t p hc he hp hd]
    exact ⟨rfl, rfl, rfl⟩

/-- C9: in a pass of the loop that selects token `t` with a non-nil piece of
length `len`, with `L < 8192` bytes accumulated, the piece is appended if and
only if `L + len < 8192` and otherwise the output is left as it was; the
buffer stays below 8192 bytes; in both cases `t` is decoded at the current
position, and when that decode succeeds the pass counts one against
`max_tokens` and the loop goes on from the resulting state. -/
theorem piece_appended_iff_fits {σ α : Type} [LinearOrder α] (b : Backend σ α)
    (model ctx : Ptr) (st : Gen σ) (t : Int) (bytes : CStr)
    (hc : choice b model ctx st.s = some t) (he : b.token_is_eog st.s model t = false)
    (hp : b.token_to_piece st.s ctx t = some bytes) (hL : st.result.length < 8192) :
    ((infer_iter b model ctx st).1.result = st.result ++ bytes ↔
        st.result.length + bytes.length < 8192) ∧
      (¬ (st.result.length + bytes.length < 8192) →
        (infer_iter b model ctx st).1.result = st.result) ∧
      (infer_iter b model ctx st).1.result.length < 8192 ∧
      (infer_iter b model ctx st).1.calls = st.calls ++ [Call.get_logits ctx,
        Call.token_to_piece ctx t, Call.decode_token ctx t st.n_past] ∧
      (infer_iter b model ctx st).1.s = (b.decode st.s ctx [t] st.n_past).2 ∧
      ((b.decode st.s ctx [t] st.n_past).1 = 0 →
        (infer_iter b model ctx st).2 = true ∧
        (infer_iter b model ctx st).1.n_gen = st.n_gen + 1 ∧
        (infer_iter b model ctx st).1.n_past = st.n_past + 1 ∧
        ∀ (max_tokens : Int) (fuel : Nat), st.n_gen < max_tokens →
          infer_loop b model ctx max_tokens (fuel + 1) st =
            infer_loop b model ctx max_tokens fuel (infer_iter b model ctx st).1) := by
  obtain ⟨hres, hcalls, hs⟩ := infer_iter_result b model ctx st t (some bytes) hc he hp
  refine ⟨?_, ?_, ?_, hcalls, hs, ?_⟩
  · rw [hres]
    by_cases hfit : st.result.length + bytes.length < 8192
    · simp [append_piece, hfit]
    · have hdrop : append_piece st.result (some bytes) = st.result := by
        simp [append_piece, hfit]
      rw [hdrop]
      constructor
      · intro heq
        have hlen := congrArg List.length heq
        simp only [List.length_append] at hlen
        omega
      · intro hlt
        exact absurd hlt hfit
  · intro hfit
    rw [hres]
    simp [append_piece, hfit]
  · rw [hres]
    by_cases hfit : st.result.length + bytes.length < 8192
    · simp only [append_piece, if_pos hfit, List.length_append]; exact hfit
    · simp only [append_piece, if_neg hfit]; exact hL
  · intro hd
    have hiter := infer_iter_pass b model ctx st t (some bytes) hc he hp hd
    refine ⟨by rw [hiter], by rw [hiter]; rfl, by rw [hiter]; rfl, ?_⟩
    intro max_tokens fuel hlt
    rw [infer_loop, if_pos hlt, hiter]
    simp

theorem advance_accumulate {σ α : Type} (b : Backend σ α) (s : σ) (lm : LlamaModel)
    (text : CStr) (ts : List (Int × Option CStr)) :
    (advance b lm.ctx (loop_entry b s lm text) ts).result = accumulate (ts.map Prod.snd) := by
  rw [advance_result]
  rfl

theorem infer_run_eog {σ α : Type} [LinearOrder α] (b : Backend σ α) (s : σ)
    (mem : InferAlloc) (r : Registry) (h : Int) (lm : LlamaModel) (text : CStr)
    (max_tokens : Int) (temperature : Float) (ts : List (Int × Option CStr))
    (hready : ReachesLoop b s mem r h lm text)
    (hrun : Passes b lm.model lm.ctx (EogAt b lm.model lm.ctx) (loop_entry b s lm text).s
      (loop_entry b s lm text).n_past ts)
    (hmax : (ts.length : Int) < max_tokens) :
    llama_infer b s mem r h (some text) max_tokens temperature =
      some ⟨mkstring (some (accumulate (ts.map Prod.snd) ++ [0])),
        (advance b lm.ctx (loop_entry b s lm text) ts).s,
        (advance b lm.ctx (loop_entry b s lm text) ts).calls ++ [Call.get_logits lm.ctx]⟩ := by
  rw [infer_reaches_loop b s mem r h lm text max_tokens temperature hready]
  obtain ⟨f, hf⟩ : ∃ f, max_tokens.toNat = ts.length + (f + 1) :=
    ⟨max_tokens.toNat - ts.length - 1, by omega⟩
  have hadv := infer_loop_advance b lm.model lm.ctx (EogAt b lm.model lm.ctx) max_tokens
    ts (f + 1) (loop_entry b s lm text) hrun (by simp only [loop_entry]; omega)
  have hgen := advance_n_gen b lm.ctx ts (loop_entry b s lm text)
  have hloop := infer_loop_eog b lm.model lm.ctx max_tokens f _
    (by rw [hgen]; simp only [loop_entry]; omega) hadv.2
  simp only [hf, hadv.1, hloop, advance_accumulate]

theorem infer_run_decode_fails {σ α : Type} [LinearOrder α] (b : Backend σ α) (s : σ)
    (mem : InferAlloc) (r : Registry) (h : Int) (lm : LlamaModel) (text : CStr)
    (max_tokens : Int) (temperature : Float) (ts : List (Int × Option CStr)) (t : Int)
    (p : Option CStr) (hready : ReachesLoop b s mem r h lm text)
    (hrun : Passes b lm.model lm.ctx (DecodeFailsAt b lm.model lm.ctx t p)
      (loop_entry b s lm text).s (loop_entry b s lm text).n_past ts)
    (hmax : (ts.length : Int) < max_tokens) :
    llama_infer b s mem r h (some text) max_tokens temperature =
      some ⟨mkstring (some (accumulate (ts.map Prod.snd ++ [p]) ++ [0])),
        (b.decode (advance b lm.ctx (loop_entry b s lm text) ts).s lm.ctx [t]
          (advance b lm.ctx (loop_entry b s lm text) ts).n_past).2,
        (advance b lm.ctx (loop_entry b s lm text) ts).calls ++ [Call.get_logits lm.ctx,
          Call.token_to_piece lm.ctx t,
          Call.decode_token lm.ctx t (advance b lm.ctx (loop_entry b s lm text) ts).n_past]⟩ := by
  rw [infer_reaches_loop b s mem r h lm text max_tokens temperature hready]
  obtain ⟨f, hf⟩ : ∃ f, max_tokens.toNat = ts.length + (f + 1) :=
    ⟨max_tokens.toNat - ts.length - 1, by omega⟩
  have hadv := infer_loop_advance b lm.model lm.ctx (DecodeFailsAt b lm.model lm.ctx t p)
    max_tokens ts (f + 1) (loop_entry b s lm text) hrun (by simp only [loop_entry]; omega)
  have hgen := advance_n_gen b lm.ctx ts (loop_entry b s lm text)
  have hloop := infer_loop_decode_fails b lm.model lm.ctx max_tokens f _ t p
    (by rw [hgen]; simp only [loop_entry]; omega) hadv.2
  simp only [hf, hadv.1, hloop, advance_accumulate]
  simp [accumulate, List.foldl_append]

theorem append_piece_some (result bytes : CStr) :
    append_piece result (some bytes) =
      if result.length + bytes.length < 8192 then result ++ bytes else result := rfl

theorem longPiece_length : longPiece.length = 8192 := by
  rw [longPiece, List.length_replicate]

/-- C9, worked instance: on the stub whose first token has an 8192-byte piece
and whose second token is `B`, the first pass leaves the output empty, and the
whole call with `max_tokens = 5` returns `B`: the short piece is appended
after the long one was dropped. -/
theorem piece_appended_iff_fits_witness :
    (infer_iter stubLong (some 7) (some 9) (loop_entry stubLong 0 lmGood promptHi)).1.result
        = [] ∧
      llama_infer stubLong 0 memGood regOne 0 (some promptHi) 5 0 =
        some ⟨[66], 3, [Call.tokenize (some 7) promptHi,
          Call.decode_prompt (some 9) [104, 105] 0,
          Call.get_logits (some 9), Call.token_to_piece (some 9) 1,
          Call.decode_token (some 9) 1 2,
          Call.get_logits (some 9), Call.token_to_piece (some 9) 2,
          Call.decode_token (some 9) 2 3,
          Call.get_logits (some 9)]⟩ :=
  ⟨(piece_appended_iff_fits stubLong (some 7) (some 9)
      (loop_entry stubLong 0 lmGood promptHi) 1 longPiece
      (by decide) rfl rfl (by decide)).2.1
      (by rw [longPiece_length]; decide),
    by
      rw [infer_run_eog stubLong 0 memGood regOne 0 lmGood promptHi 5 0 passesLong
        ⟨by decide, by decide, by decide, rfl, rfl, by decide, by decide⟩
        ⟨by decide, rfl, rfl, rfl, by decide, rfl, rfl, rfl, ⟨0, by decide, rfl⟩⟩
        (by decide)]
      have hacc : accumulate (passesLong.map Prod.snd) = [66] := by
        unfold accumulate passesLong
        rw [List.map_cons, List.map_cons, List.map_nil, List.foldl_cons, append_piece_some,
          longPiece_length, List.foldl_cons, List.foldl_nil, if_neg (by decide),
          append_piece_some]
        rfl
      rw [hacc]
      rfl⟩

/-- C10, as stated, fails: on `stubNul` the call reaches the loop, the decode
of the token selected in pass 0 fails, the bytes accumulated by then are
`A NUL B`, and `llama_infer` returns `A`, not the accumulated bytes. -/
theorem infer_decode_failure_cut_at_nul :
    ReachesLoop stubNul 0 memGood regOne 0 lmGood promptHi ∧
      Passes stubNul lmGood.model lmGood.ctx
        (DecodeFailsAt stubNul lmGood.model lmGood.ctx 1 (some [65, 0, 66]))
        (loop_entry stubNul 0 lmGood promptHi).s (loop_entry stubNul 0 lmGood promptHi).n_past
        [] ∧
      accumulate [some [65, 0, 66]] = [65, 0, 66] ∧
      ∃ res, llama_infer stubNul 0 memGood regOne 0 (some promptHi) 5 0 = some res ∧
        res.text = [65] ∧ res.text ≠ accumulate [some [65, 0, 66]] := by
  have hready : ReachesLoop stubNul 0 memGood regOne 0 lmGood promptHi :=
    ⟨by decide, by decide, by decide, rfl, rfl, by decide, by decide⟩
  have hrun : Passes stubNul lmGood.model lmGood.ctx
      (DecodeFailsAt stubNul lmGood.model lmGood.ctx 1 (some [65, 0, 66]))
      (loop_entry stubNul 0 lmGood promptHi).s (loop_entry stubNul 0 lmGood promptHi).n_past
      [] := ⟨by decide, rfl, rfl, by decide⟩
  refine ⟨hready, hrun, by decide, _, infer_run_decode_fails stubNul 0 memGood regOne 0 lmGood
    promptHi 5 0 [] 1 (some [65, 0, 66]) hready hrun (by decide), by decide, by decide⟩

/-- C10, amended: when a call reaches the loop, the passes 0..k-1 complete and
the decode of the token selected in pass `k < max_tokens` fails, `llama_infer`
stops there, after `k + 1` single-token decodes, and, provided the bytes
accumulated so far hold no zero byte, returns exactly them: the pieces of the
tokens selected in passes 0..k that fitted the buffer, the piece of the token
whose decode failed included. -/
theorem infer_returns_text_on_decode_failure {σ α : Type} [LinearOrder α] (b : Backend σ α)
    (s : σ) (mem : InferAlloc) (r : Registry) (h : Int) (lm : LlamaModel) (text : CStr)
    (max_tokens : Int) (temperature : Float) (ts : List (Int × Option CStr)) (t : Int)
    (p : Option CStr) (hready : ReachesLoop b s mem r h lm text)
    (hrun : Passes b lm.model lm.ctx (DecodeFailsAt b lm.model lm.ctx t p)
      (loop_entry b s lm text).s (loop_entry b s lm text).n_past ts)
    (hmax : (ts.length : Int) < max_tokens)
    (hzero : ∀ c ∈ accumulate (ts.map Prod.snd ++ [p]), c ≠ 0) :
    ∃ res, llama_infer b s mem r h (some text) max_tokens temperature = some res ∧
      res.text = accumulate (ts.map Prod.snd ++ [p]) ∧
      tokenDecodes res.calls = ts.length + 1 := by
  refine ⟨_, infer_run_decode_fails b s mem r h lm text max_tokens temperature ts t p hready
    hrun hmax, mkstring_terminated _ hzero, ?_⟩
  have hcount := advance_tokenDecodes b lm.ctx ts (loop_entry b s lm text)
  simp only [tokenDecodes, List.countP_append] at hcount ⊢
  rw [hcount]
  simp [loop_entry, Call.isTokenDecode]

/-- C10, worked instance: `stubFail` selects `A`, decodes it, selects `B` and
fails to decode it; with `max_tokens = 5` the call returns `AB` after 2
single-token decodes. -/
theorem infer_returns_text_on_decode_failure_witness :
    ∃ res, llama_infer stubFail 0 memGood regOne 0 (some promptHi) 5 0 = some res ∧
      res.text = [65, 66] ∧ tokenDecodes res.calls = 2 :=
  infer_returns_text_on_decode_failure stubFail 0 memGood regOne 0 lmGood promptHi 5 0
    [(1, some [65])] 2 (some [66])
    ⟨by decide, by decide, by decide, rfl, rfl, by decide, by decide⟩
    ⟨by decide, rfl, rfl, rfl, ⟨by decide, rfl, rfl, by decide⟩⟩
    (by decide) (by decide)

/-! ## Claims about prompt ingestion -/

/-- C11: for a handle naming an occupied slot, when the tokenizer reports a
negative token count for the prompt, or the decode of the prompt batch is
rejected, `llama_infer` returns the empty string for every `max_tokens` (and
every allocation outcome), with no logits request and no single-token decode;
after a tokenizer failure the prompt batch is not decoded either. -/
theorem infer_prompt_failure_empty {σ α : Type} [LinearOrder α] (b : Backend σ α) (s : σ)
    (mem : InferAlloc) (r : Registry) (h : Int) (lm : LlamaModel) (text : CStr)
    (max_tokens : Int) (temperature : Float)
    (hlt : h < r.nmodels) (hslot : r.slot h = some (some lm))
    (hfail : (b.tokenize s lm.model text).1 < 0 ∨
      (b.decode s lm.ctx ((b.tokenize s lm.model text).2.take
        (b.tokenize s lm.model text).1.toNat) 0).1 ≠ 0) :
    ∃ res, llama_infer b s mem r h (some text) max_tokens temperature = some res ∧
      res.text = [] ∧
      (∀ c ∈ res.calls, c.isGetLogits = false ∧ c.isTokenDecode = false) ∧
      ((b.tokenize s lm.model text).1 < 0 → ∀ c ∈ res.calls, c.isPromptDecode = false) := by
  have h0 := (Registry.slot_lt r h _ hslot).1
  have hr : ¬ (h < 0 ∨ h ≥ r.nmodels ∨ some text = none) := by
    simp only [reduceCtorEq, or_false]; omega
  unfold llama_infer
  rw [if_neg hr, hslot]
  simp only [mkstring_emptyLit, Option.getD_some]
  by_cases htok : (b.tokenize s lm.model text).1 < 0
  · simp only [htok, if_true]
    split_ifs
    all_goals
      refine ⟨_, rfl, rfl, ?_, ?_⟩
      · simp [Call.isGetLogits, Call.isTokenDecode]
      · intro _; simp [Call.isPromptDecode]
  · have hdec : (b.decode s lm.ctx ((b.tokenize s lm.model text).2.take
        (b.tokenize s lm.model text).1.toNat) 0).1 ≠ 0 := by
      rcases hfail with hf | hf
      · exact absurd hf htok
      · exact hf
    simp only [htok, if_false, hdec, ne_eq, not_false_eq_true, if_true]
    split_ifs
    all_goals
      refine ⟨_, rfl, rfl, ?_, ?_⟩
      · simp [Call.isGetLogits, Call.isTokenDecode]
      · intro hneg; exact hneg.elim

/-- C11, worked instance: the tokenizer of `stubNoTok` reports an error. -/
theorem infer_prompt_failure_empty_witness :
    ∃ res, llama_infer stubNoTok 0 memGood regOne 0 (some promptHi) 10 0 = some res ∧
      res.text = [] ∧
      (∀ c ∈ res.calls, c.isGetLogits = false ∧ c.isTokenDecode = false) ∧
      ((stubNoTok.tokenize 0 lmGood.model promptHi).1 < 0 →
        ∀ c ∈ res.calls, c.isPromptDecode = false) :=
  infer_prompt_failure_empty stubNoTok 0 memGood regOne 0 lmGood promptHi 10 0
    (by decide) (by decide) (Or.inl (by decide))

/-! ## The registry invariant -/

theorem Registry.slot_store_ne (r : Registry) (i : Nat) (j : Int) (v : Option LlamaModel)
    (hne : j ≠ (i : Int)) : (r.store i v).slot j = r.slot j := by
  unfold Registry.slot Registry.store
  by_cases h0 : 0 ≤ j
  · have hij : i ≠ j.toNat := by omega
    simp only [h0, if_true]
    exact List.getElem?_set_ne hij
  · simp only [h0, if_false]

theorem Registry.nmodels_store (r : Registry) (i : Nat) (v : Option LlamaModel) :
    (r.store i v).nmodels = r.nmodels := rfl

theorem Registry.slot_init (i : Int) (h0 : 0 ≤ i) (h1 : i < 32) :
    llambo_cmodinit.slot i = some none := by
  have hi : i.toNat < 32 := by omega
  unfold Registry.slot llambo_cmodinit
  simp only [h0, if_true]
  rw [List.getElem?_replicate, if_pos hi]

theorem load_cases (env : LoadEnv) (r : Registry) (path : Option CStr)
    (use_mmap n_gpu_layers : Int) (res : Ret)
    (hload : llama_load_model env r path use_mmap n_gpu_layers = some res) :
    (res.ret = -1 ∧ res.reg = r) ∨
      (∃ p m c, path = some p ∧ env.malloc_ok = true ∧ env.model = some m ∧ env.ctx = some c ∧
        0 ≤ r.nmodels ∧ r.nmodels < 32 ∧ res.ret = r.nmodels ∧
        res.reg = (r.store r.nmodels.toNat
          (some (LlamaModel.mk (some m) (some c) (some p) 1))).setCount (r.nmodels + 1)) := by
  unfold llama_load_model at hload
  cases path with
  | none =>
    simp only [Option.some.injEq] at hload
    subst hload
    exact Or.inl ⟨rfl, rfl⟩
  | some p =>
    simp only [] at hload
    by_cases hcap : r.nmodels ≥ 32
    · rw [if_pos hcap, Option.some.injEq] at hload
      subst hload
      exact Or.inl ⟨rfl, rfl⟩
    · rw [if_neg hcap] at hload
      by_cases hm : env.malloc_ok = false
      · rw [if_pos hm, Option.some.injEq] at hload
        subst hload
        exact Or.inl ⟨rfl, rfl⟩
      · rw [if_neg hm] at hload
        cases hmodel : env.model with
        | none =>
          simp only [hmodel, Option.some.injEq] at hload
          subst hload
          exact Or.inl ⟨rfl, rfl⟩
        | some m =>
          cases hctx : env.ctx with
          | none =>
            simp only [hmodel, hctx, Option.some.injEq] at hload
            subst hload
            exact Or.inl ⟨rfl, rfl⟩
          | some c =>
            by_cases h0 : 0 ≤ r.nmodels
            · simp only [hmodel, hctx, h0, if_true, Option.some.injEq] at hload
              subst hload
              exact Or.inr ⟨p, m, c, rfl, by simpa using hm, rfl, rfl, h0, by omega, rfl, rfl⟩
            · simp [hmodel, hctx, h0] at hload

theorem free_cases (r : Registry) (h : Int) (res : Ret)
    (hfree : llama_free_model r h = some res) :
    (res.ret = -1 ∧ res.reg = r ∧ res.calls = [] ∧
        (h < 0 ∨ r.nmodels ≤ h ∨ r.slot h = some none)) ∨
      (∃ lm, 0 ≤ h ∧ h < r.nmodels ∧ r.slot h = some (some lm) ∧ res.ret = 0 ∧
        ((lm.ref_count - 1 ≤ 0 ∧ res.reg = r.store h.toNat none) ∨
          (0 < lm.ref_count - 1 ∧
            res.reg = r.store h.toNat (some { lm with ref_count := lm.ref_count - 1 })))) := by
  unfold llama_free_model at hfree
  by_cases hr : h < 0 ∨ h ≥ r.nmodels
  · rw [if_pos hr, Option.some.injEq] at hfree
    subst hfree
    refine Or.inl ⟨rfl, rfl, rfl, ?_⟩
    rcases hr with h1 | h1
    · exact Or.inl h1
    · exact Or.inr (Or.inl h1)
  · rw [if_neg hr] at hfree
    cases hslot : r.slot h with
    | none => simp [hslot] at hfree
    | some v =>
      cases v with
      | none =>
        simp only [hslot, Option.some.injEq] at hfree
        subst hfree
        exact Or.inl ⟨rfl, rfl, rfl, Or.inr (Or.inr rfl)⟩
      | some lm =>
        simp only [hslot] at hfree
        refine Or.inr ⟨lm, by omega, by omega, rfl, ?_⟩
        by_cases hrc : lm.ref_count - 1 ≤ 0
        · rw [if_pos hrc, Option.some.injEq] at hfree
          subst hfree
          exact ⟨rfl, Or.inl ⟨hrc, rfl⟩⟩
        · rw [if_neg hrc, Option.some.injEq] at hfree
          subst hfree
          exact ⟨rfl, Or.inr ⟨by omega, rfl⟩⟩

theorem teardown_range_store (r : Registry) (count i k : Nat) (v : Option LlamaModel)
    (hik : i < k) : teardown_range (r.store i v) count k = teardown_range r count k := by
  induction count generalizing k with
  | zero => rfl
  | succ n ih =>
    have hne : ((k : Nat) : Int) ≠ (i : Int) := by omega
    simp only [teardown_range, slot_teardown, Registry.slot_store_ne r i k v hne]
    rw [ih (k + 1) (by omega)]

theorem cleanup_loop_spec (count i : Nat) (r : Registry) (calls : List Call)
    (hb : i + count ≤ 32) :
    ∃ r1, cleanup_loop count i r calls = some (r1, calls ++ teardown_range r count i) ∧
      r1.nmodels = r.nmodels ∧
      ∀ j : Int, r1.slot j =
        if (i : Int) ≤ j ∧ j < (i : Int) + count then some none else r.slot j := by
  induction count generalizing i r calls with
  | zero =>
    refine ⟨r, by simp [cleanup_loop, teardown_range], rfl, ?_⟩
    intro j
    have : ¬ ((i : Int) ≤ j ∧ j < (i : Int) + (0 : Nat)) := by omega
    rw [if_neg this]
  | succ n ih =>
    obtain ⟨v, hv⟩ := r.slot_defined i (by omega) (by omega)
    cases v with
    | none =>
      obtain ⟨r1, h1, hn, hs⟩ := ih (i + 1) r calls (by omega)
      refine ⟨r1, ?_, hn, ?_⟩
      · simp only [cleanup_loop, hv, h1, teardown_range, slot_teardown, List.nil_append]
      · intro j
        rw [hs j]
        by_cases hj : j = (i : Int)
        · subst hj
          have h2 : ¬ (((i + 1 : Nat) : Int) ≤ (i : Int) ∧
              (i : Int) < ((i + 1 : Nat) : Int) + (n : Nat)) := by omega
          have h3 : (i : Int) ≤ (i : Int) ∧ (i : Int) < (i : Int) + ((n + 1 : Nat) : Int) := by
            omega
          rw [if_neg h2, if_pos h3, hv]
        · by_cases hin : ((i + 1 : Nat) : Int) ≤ j ∧ j < ((i + 1 : Nat) : Int) + (n : Nat)
          · have h3 : (i : Int) ≤ j ∧ j < (i : Int) + ((n + 1 : Nat) : Int) := by omega
            rw [if_pos hin, if_pos h3]
          · have h3 : ¬ ((i : Int) ≤ j ∧ j < (i : Int) + ((n + 1 : Nat) : Int)) := by omega
            rw [if_neg hin, if_neg h3]
    | some lm =>
      obtain ⟨r1, h1, hn, hs⟩ := ih (i + 1) (r.store i none) (calls ++ teardown lm) (by omega)
      refine ⟨r1, ?_, hn, ?_⟩
      · simp only [cleanup_loop, hv, h1, teardown_range, slot_teardown,
          teardown_range_store r n i (i + 1) none (Nat.lt_succ_self i), List.append_assoc]
      · intro j
        rw [hs j]
        by_cases hj : j = (i : Int)
        · subst hj
          have h2 : ¬ (((i + 1 : Nat) : Int) ≤ (i : Int) ∧
              (i : Int) < ((i + 1 : Nat) : Int) + (n : Nat)) := by omega
          have h3 : (i : Int) ≤ (i : Int) ∧ (i : Int) < (i : Int) + ((n + 1 : Nat) : Int) := by
            omega
          rw [if_neg h2, if_pos h3]
          have := Registry.slot_store_same r (i : Int) none (by omega) (by omega)
          simpa using this
        · by_cases hin : ((i + 1 : Nat) : Int) ≤ j ∧ j < ((i + 1 : Nat) : Int) + (n : Nat)
          · have h3 : (i : Int) ≤ j ∧ j < (i : Int) + ((n + 1 : Nat) : Int) := by omega
            rw [if_pos hin, if_pos h3]
          · have h3 : ¬ ((i : Int) ≤ j ∧ j < (i : Int) + ((n + 1 : Nat) : Int)) := by omega
            rw [if_neg hin, if_neg h3, Registry.slot_store_ne r i j none hj]

theorem cleanup_spec (r : Registry) (hupper : r.nmodels ≤ 32) :
    ∃ r1, llambo_cmodcleanup r =
        some (r1, teardown_range r r.nmodels.toNat 0 ++ [Call.backend_free]) ∧
      r1.nmodels = 0 ∧
      ∀ j : Int, r1.slot j = if 0 ≤ j ∧ j < r.nmodels then some none else r.slot j := by
  obtain ⟨r1, h1, _, hs⟩ := cleanup_loop_spec r.nmodels.toNat 0 r [] (by omega)
  refine ⟨r1.setCount 0, ?_, rfl, ?_⟩
  · simp only [llambo_cmodcleanup, h1, List.nil_append]
  · intro j
    rw [Registry.slot_setCount, hs j]
    by_cases hin : 0 ≤ j ∧ j < r.nmodels
    · have h3 : ((0 : Nat) : Int) ≤ j ∧ j < ((0 : Nat) : Int) + (r.nmodels.toNat : Nat) := by
        omega
      rw [if_pos hin, if_pos h3]
    · have h3 : ¬ (((0 : Nat) : Int) ≤ j ∧ j < ((0 : Nat) : Int) + (r.nmodels.toNat : Nat)) := by
        omega
      rw [if_neg hin, if_neg h3]

theorem inv_init : llambo_cmodinit.Inv where
  lower := le_refl _
  upper := by decide
  trailing := fun i h0 h1 => Registry.slot_init i h0 h1
  sound := fun i lm h => by
    obtain ⟨h0, h1⟩ := Registry.slot_lt _ i _ h
    rw [Registry.slot_init i h0 h1] at h
    cases h
  has_path := fun i lm h => by
    obtain ⟨h0, h1⟩ := Registry.slot_lt _ i _ h
    rw [Registry.slot_init i h0 h1] at h
    cases h

theorem inv_load (env : LoadEnv) (r : Registry) (path : Option CStr)
    (use_mmap n_gpu_layers : Int) (res : Ret) (hinv : r.Inv)
    (hload : llama_load_model env r path use_mmap n_gpu_layers = some res) : res.reg.Inv := by
  rcases load_cases env r path use_mmap n_gpu_layers res hload with ⟨_, hreg⟩ |
    ⟨p, m, c, _, _, _, _, h0, h1, _, hreg⟩
  · rw [hreg]; exact hinv
  · rw [hreg]
    have hnm : (r.nmodels.toNat : Int) = r.nmodels := Int.toNat_of_nonneg h0
    refine ⟨?_, ?_, ?_, ?_, ?_⟩
    · show 0 ≤ r.nmodels + 1
      omega
    · show r.nmodels + 1 ≤ 32
      omega
    · intro i hi h32
      have hi1 : r.nmodels + 1 ≤ i := hi
      rw [Registry.slot_setCount, Registry.slot_store_ne r _ i _ (by omega)]
      exact hinv.trailing i (by omega) h32
    · intro i lm hslot
      rw [Registry.slot_setCount] at hslot
      by_cases hi : i = r.nmodels
      · subst hi
        rw [Registry.slot_store_same r _ _ h0 h1] at hslot
        simp only [Option.some.injEq] at hslot
        subst hslot
        exact ⟨by simp, by simp, rfl⟩
      · rw [Registry.slot_store_ne r _ i _ (by omega)] at hslot
        exact hinv.sound i lm hslot
    · intro i lm hslot
      rw [Registry.slot_setCount] at hslot
      by_cases hi : i = r.nmodels
      · subst hi
        rw [Registry.slot_store_same r _ _ h0 h1] at hslot
        simp only [Option.some.injEq] at hslot
        subst hslot
        simp
      · rw [Registry.slot_store_ne r _ i _ (by omega)] at hslot
        exact hinv.has_path i lm hslot

theorem inv_free (r : Registry) (h : Int) (res : Ret) (hinv : r.Inv)
    (hfree : llama_free_model r h = some res) : res.reg.Inv := by
  rcases free_cases r h res hfree with ⟨_, hreg, _⟩ | ⟨lm, h0, hlt, hslot, _, hcase⟩
  · rw [hreg]; exact hinv
  · have hrc := (hinv.sound h lm hslot).2.2
    have h32 : h < 32 := (Registry.slot_lt r h _ hslot).2
    have hnm : (h.toNat : Int) = h := Int.toNat_of_nonneg h0
    rcases hcase with ⟨_, hreg⟩ | ⟨hpos, _⟩
    · rw [hreg]
      refine ⟨hinv.lower, hinv.upper, ?_, ?_, ?_⟩
      · intro i hi hi32
        have hi1 : r.nmodels ≤ i := hi
        rw [Registry.slot_store_ne r _ i _ (by omega)]
        exact hinv.trailing i hi1 hi32
      · intro i lm1 hs
        by_cases hi : i = h
        · subst hi
          rw [Registry.slot_store_same r _ _ h0 h32] at hs
          cases hs
        · rw [Registry.slot_store_ne r _ i _ (by omega)] at hs
          exact hinv.sound i lm1 hs
      · intro i lm1 hs
        by_cases hi : i = h
        · subst hi
          rw [Registry.slot_store_same r _ _ h0 h32] at hs
          cases hs
        · rw [Registry.slot_store_ne r _ i _ (by omega)] at hs
          exact hinv.has_path i lm1 hs
    · omega

theorem inv_cleanup (r r1 : Registry) (calls : List Call) (hinv : r.Inv)
    (hclean : llambo_cmodcleanup r = some (r1, calls)) :
    r1.Inv ∧ r1.nmodels = 0 ∧ (∀ j : Int, 0 ≤ j → j < 32 → r1.slot j = some none) ∧
      calls = teardown_range r r.nmodels.toNat 0 ++ [Call.backend_free] := by
  obtain ⟨r2, h2, hn, hs⟩ := cleanup_spec r hinv.upper
  rw [hclean, Option.some.injEq, Prod.mk.injEq] at h2
  obtain ⟨hr, hc⟩ := h2
  subst hr
  have hall : ∀ j : Int, 0 ≤ j → j < 32 → r1.slot j = some none := by
    intro j h0 h32
    rw [hs j]
    by_cases hin : 0 ≤ j ∧ j < r.nmodels
    · rw [if_pos hin]
    · rw [if_neg hin]
      exact hinv.trailing j (by omega) h32
  have hnone : ∀ (i : Int) (lm : LlamaModel), r1.slot i = some (some lm) → False := by
    intro i lm hslot
    obtain ⟨h0, h32⟩ := Registry.slot_lt _ i _ hslot
    rw [hall i h0 h32] at hslot
    cases hslot
  exact ⟨⟨by omega, by omega, fun i _ h32 => hall i (by omega) h32,
    fun i lm hslot => (hnone i lm hslot).elim, fun i lm hslot => (hnone i lm hslot).elim⟩,
    hn, hall, hc⟩

theorem reachable_inv (r : Registry) (hr : Reachable r) : r.Inv := by
  induction hr with
  | init => exact inv_init
  | load env path use_mmap n_gpu_layers res _ hload ih =>
    exact inv_load env _ path use_mmap n_gpu_layers res ih hload
  | free h res _ hfree ih => exact inv_free _ h res ih hfree
  | cleanup r1 calls _ hclean ih => exact (inv_cleanup _ r1 calls ih hclean).1

theorem Registry.Inv.occupied_range {r : Registry} (hinv : r.Inv) (h : Int) (lm : LlamaModel)
    (hslot : r.slot h = some (some lm)) : 0 ≤ h ∧ h < r.nmodels := by
  obtain ⟨h0, h32⟩ := Registry.slot_lt r h _ hslot
  refine ⟨h0, ?_⟩
  by_contra hge
  have := hinv.trailing h (by omega) h32
  rw [this] at hslot
  cases hslot

theorem Registry.Inv.empty_cases {r : Registry} (hinv : r.Inv) (h : Int)
    (hno : ¬ ∃ lm, r.slot h = some (some lm)) :
    h < 0 ∨ r.nmodels ≤ h ∨ r.slot h = some none := by
  by_cases h0 : h < 0
  · exact Or.inl h0
  · by_cases h1 : r.nmodels ≤ h
    · exact Or.inr (Or.inl h1)
    · have hu := hinv.upper
      obtain ⟨v, hv⟩ := r.slot_defined h (by omega) (by omega)
      cases v with
      | none => exact Or.inr (Or.inr hv)
      | some lm => exact absurd ⟨lm, hv⟩ hno

theorem Registry.Inv.occupied_le {r : Registry} (hinv : r.Inv) :
    r.occupied ≤ r.nmodels.toNat := by
  unfold Registry.occupied
  have hlen := r.size_eq
  have hl := hinv.lower
  have hu := hinv.upper
  rw [← List.take_append_drop r.nmodels.toNat r.models, List.countP_append]
  have hdrop : List.countP Option.isSome (r.models.drop r.nmodels.toNat) = 0 := by
    rw [List.countP_eq_zero]
    intro a ha
    obtain ⟨k, hk, hak⟩ := List.getElem_of_mem ha
    rw [List.getElem_drop] at hak
    rw [List.length_drop] at hk
    have hslot := hinv.trailing ((r.nmodels.toNat + k : Nat) : Int) (by omega) (by omega)
    unfold Registry.slot at hslot
    simp only [Int.natCast_nonneg, if_true, Int.toNat_ofNat] at hslot
    rw [List.getElem?_eq_getElem (by omega), Option.some.injEq] at hslot
    rw [← hak, hslot]
    simp
  rw [hdrop, Nat.add_zero]
  exact le_trans (List.countP_le_length _) (by simp [List.length_take])

theorem free_accepts_iff (r : Registry) (hinv : r.Inv) (h : Int) :
    (∃ res, llama_free_model r h = some res) ∧
      ((∃ res, llama_free_model r h = some res ∧ res.ret = 0) ↔
        ∃ lm, r.slot h = some (some lm)) := by
  by_cases hocc : ∃ lm, r.slot h = some (some lm)
  · obtain ⟨lm, hslot⟩ := hocc
    obtain ⟨_, hlt⟩ := hinv.occupied_range h lm hslot
    have hfree := free_last_ref r h lm hlt hslot (hinv.sound h lm hslot).2.2
    exact ⟨⟨_, hfree⟩, ⟨fun _ => ⟨lm, hslot⟩, fun _ => ⟨_, hfree, rfl⟩⟩⟩
  · have hfree := free_invalid r h (hinv.empty_cases h hocc)
    refine ⟨⟨_, hfree⟩, ⟨?_, fun hx => absurd hx hocc⟩⟩
    rintro ⟨res, hres, hret⟩
    rw [hfree, Option.some.injEq] at hres
    subst hres
    cases hret

theorem info_accepts_iff {σ α : Type} (b : Backend σ α) (s : σ) (r : Registry)
    (hinv : r.Inv) (h : Int) :
    (∃ info, llama_get_model_info b s r h = some info) ∧
      ((∃ info, llama_get_model_info b s r h = some info ∧ info ≠ []) ↔
        ∃ lm, r.slot h = some (some lm)) := by
  by_cases hocc : ∃ lm, r.slot h = some (some lm)
  · obtain ⟨lm, hslot⟩ := hocc
    obtain ⟨h0, hlt⟩ := hinv.occupied_range h lm hslot
    have hr : ¬ (h < 0 ∨ h ≥ r.nmodels) := by omega
    obtain ⟨p, hp⟩ := Option.ne_none_iff_exists'.mp (hinv.has_path h lm hslot)
    obtain ⟨hinfo, hne⟩ := info_occupied b s r h lm p hlt hslot (hinv.sound h lm hslot).1 hp
    exact ⟨⟨_, hinfo⟩, ⟨fun _ => ⟨lm, hslot⟩, fun _ => ⟨_, hinfo, hne⟩⟩⟩
  · have hinfo := info_invalid b s r h (hinv.empty_cases h hocc)
    refine ⟨⟨_, hinfo⟩, ⟨?_, fun hx => absurd hx hocc⟩⟩
    rintro ⟨info, hres, hne⟩
    rw [hinfo, Option.some.injEq] at hres
    exact absurd hres.symm hne

theorem infer_accepts_iff {σ α : Type} [LinearOrder α] (b : Backend σ α) (s : σ)
    (mem : InferAlloc) (r : Registry) (hinv : r.Inv) (h : Int) (text : CStr)
    (max_tokens : Int) (temperature : Float) (hmem : mem.tokens_ok = true) :
    (∃ res, llama_infer b s mem r h (some text) max_tokens temperature = some res) ∧
      ((∃ res, llama_infer b s mem r h (some text) max_tokens temperature = some res ∧
          res.calls ≠ []) ↔ ∃ lm, r.slot h = some (some lm)) := by
  by_cases hocc : ∃ lm, r.slot h = some (some lm)
  · obtain ⟨lm, hslot⟩ := hocc
    obtain ⟨h0, hlt⟩ := hinv.occupied_range h lm hslot
    have hr : ¬ (h < 0 ∨ h ≥ r.nmodels ∨ some text = none) := by
      simp only [reduceCtorEq, or_false]; omega
    have hctx := (hinv.sound h lm hslot).2.1
    have hrun : ∃ res, llama_infer b s mem r h (some text) max_tokens temperature = some res ∧
        res.calls ≠ [] := by
      unfold llama_infer
      rw [if_neg hr, hslot]
      simp only [hctx, hmem, if_false, Bool.true_eq_false, Option.getD_some]
      split_ifs
      · exact ⟨_, rfl, by simp⟩
      · exact ⟨_, rfl, by simp⟩
      · exact ⟨_, rfl, by simp⟩
      · refine ⟨_, rfl, ?_⟩
        have hcalls := infer_loop_calls_ne_nil b lm.model lm.ctx max_tokens max_tokens.toNat
          { s := (b.decode s lm.ctx ((b.tokenize s lm.model text).2.take
              (b.tokenize s lm.model text).1.toNat) 0).2,
            n_past := 0 + (b.tokenize s lm.model text).1, n_gen := 0, result := [],
            calls := [Call.tokenize lm.model text, Call.decode_prompt lm.ctx
              ((b.tokenize s lm.model text).2.take (b.tokenize s lm.model text).1.toNat) 0] }
          (by simp)
        exact hcalls
    obtain ⟨res, hres, hne⟩ := hrun
    exact ⟨⟨res, hres⟩, ⟨fun _ => ⟨lm, hslot⟩, fun _ => ⟨res, hres, hne⟩⟩⟩
  · have hinv1 : h < 0 ∨ r.nmodels ≤ h ∨ some text = none ∨ r.slot h = some none := by
      rcases hinv.empty_cases h hocc with h1 | h1 | h1
      · exact Or.inl h1
      · exact Or.inr (Or.inl h1)
      · exact Or.inr (Or.inr (Or.inr h1))
    have hres := infer_invalid b s mem r h (some text) max_tokens temperature hinv1
    refine ⟨⟨_, hres⟩, ⟨?_, fun hx => absurd hx hocc⟩⟩
    rintro ⟨res, hres1, hne⟩
    rw [hres, Option.some.injEq] at hres1
    subst hres1
    exact absurd rfl hne

/-- C12: in every registry state reachable from `llambo_cmodinit` by
`llama_load_model`, `llama_free_model` and `llambo_cmodcleanup` calls,
`0 <= nmodels <= 32`, at most 32 slots are occupied, every slot from `nmodels`
on is empty, every occupied slot holds a non-nil model, a non-nil context and
a positive reference count, and for every handle `h` the three operations
are defined and accept `h` exactly when slot `h` is occupied: free returns 0,
describe returns a record, generate (non-nil prompt, token buffer allocated)
goes on to call the tokenizer. -/
theorem registry_invariant (r : Registry) (hr : Reachable r) :
    0 ≤ r.nmodels ∧ r.nmodels ≤ 32 ∧ r.occupied ≤ 32 ∧
      (∀ i : Int, r.nmodels ≤ i → i < 32 → r.slot i = some none) ∧
      (∀ (i : Int) (lm : LlamaModel), r.slot i = some (some lm) →
        lm.model ≠ none ∧ lm.ctx ≠ none ∧ 0 < lm.ref_count) ∧
      (∀ h : Int,
        ((∃ res, llama_free_model r h = some res) ∧
          ((∃ res, llama_free_model r h = some res ∧ res.ret = 0) ↔
            ∃ lm, r.slot h = some (some lm))) ∧
        (∀ (σ α : Type) (b : Backend σ α) (s : σ),
          (∃ info, llama_get_model_info b s r h = some info) ∧
          ((∃ info, llama_get_model_info b s r h = some info ∧ info ≠ []) ↔
            ∃ lm, r.slot h = some (some lm))) ∧
        (∀ (σ α : Type) (_ : LinearOrder α) (b : Backend σ α) (s : σ) (mem : InferAlloc)
          (text : CStr) (max_tokens : Int) (temperature : Float), mem.tokens_ok = true →
          (∃ res, llama_infer b s mem r h (some text) max_tokens temperature = some res) ∧
          ((∃ res, llama_infer b s mem r h (some text) max_tokens temperature = some res ∧
              res.calls ≠ []) ↔ ∃ lm, r.slot h = some (some lm)))) := by
  have hinv := reachable_inv r hr
  have hocc := hinv.occupied_le
  have hu := hinv.upper
  refine ⟨hinv.lower, hu, by omega, hinv.trailing, ?_, ?_⟩
  · intro i lm hslot
    obtain ⟨h1, h2, h3⟩ := hinv.sound i lm hslot
    exact ⟨h1, h2, by omega⟩
  · intro h
    refine ⟨free_accepts_iff r hinv h, ?_, ?_⟩
    · intro σ α b s
      exact info_accepts_iff b s r hinv h
    · intro σ α _ b s mem text max_tokens temperature hmem
      exact infer_accepts_iff b s mem r hinv h text max_tokens temperature hmem

/-- C12, worked instance: the registry holding one model is reachable. -/
theorem registry_invariant_witness :
    0 ≤ regOne.nmodels ∧ regOne.nmodels ≤ 32 ∧ regOne.occupied ≤ 32 ∧
      (∀ i : Int, regOne.nmodels ≤ i → i < 32 → regOne.slot i = some none) ∧
      (∀ (i : Int) (lm : LlamaModel), regOne.slot i = some (some lm) →
        lm.model ≠ none ∧ lm.ctx ≠ none ∧ 0 < lm.ref_count) ∧
      (∀ h : Int,
        ((∃ res, llama_free_model regOne h = some res) ∧
          ((∃ res, llama_free_model regOne h = some res ∧ res.ret = 0) ↔
            ∃ lm, regOne.slot h = some (some lm))) ∧
        (∀ (σ α : Type) (b : Backend σ α) (s : σ),
          (∃ info, llama_get_model_info b s regOne h = some info) ∧
          ((∃ info, llama_get_model_info b s regOne h = some info ∧ info ≠ []) ↔
            ∃ lm, regOne.slot h = some (some lm))) ∧
        (∀ (σ α : Type) (_ : LinearOrder α) (b : Backend σ α) (s : σ) (mem : InferAlloc)
          (text : CStr) (max_tokens : Int) (temperature : Float), mem.tokens_ok = true →
          (∃ res, llama_infer b s mem regOne h (some text) max_tokens temperature = some res) ∧
          ((∃ res, llama_infer b s mem regOne h (some text) max_tokens temperature =
              some res ∧ res.calls ≠ []) ↔ ∃ lm, regOne.slot h = some (some lm)))) :=
  registry_invariant regOne
    (Reachable.load envGood (some pathM) 1 0
      ⟨0, regOne, [Call.backend_init, Call.load_model_from_file pathM 1 0,
        Call.new_context_with_model (some 7)]⟩ Reachable.init (by decide))

/-! ## Runs of loads and frees -/

theorem load_defined (env : LoadEnv) (r : Registry) (path : Option CStr)
    (use_mmap n_gpu_layers : Int) (h0 : 0 ≤ r.nmodels) :
    ∃ res, llama_load_model env r path use_mmap n_gpu_layers = some res := by
  unfold llama_load_model
  cases path with
  | none => exact ⟨_, rfl⟩
  | some p =>
    simp only []
    split_ifs
    · exact ⟨_, rfl⟩
    · exact ⟨_, rfl⟩
    · cases env.model with
      | none => exact ⟨_, rfl⟩
      | some m =>
        cases env.ctx with
        | none => exact ⟨_, rfl⟩
        | some c => simp [h0]

theorem free_defined (r : Registry) (h : Int) (hu : r.nmodels ≤ 32) :
    ∃ res, llama_free_model r h = some res := by
  by_cases hr : h < 0 ∨ r.nmodels ≤ h
  · exact ⟨_, free_invalid r h (by tauto)⟩
  · obtain ⟨v, hv⟩ := r.slot_defined h (by omega) (by omega)
    unfold llama_free_model
    have hr1 : ¬ (h < 0 ∨ h ≥ r.nmodels) := hr
    rw [if_neg hr1, hv]
    cases v with
    | none => exact ⟨_, rfl⟩
    | some lm =>
      simp only []
      split_ifs
      · exact ⟨_, rfl⟩
      · exact ⟨_, rfl⟩

theorem free_nmodels (r : Registry) (h : Int) (res : Ret)
    (hfree : llama_free_model r h = some res) : res.reg.nmodels = r.nmodels := by
  rcases free_cases r h res hfree with ⟨_, hreg, _⟩ | ⟨lm, _, _, _, _, hcase⟩
  · rw [hreg]
  · rcases hcase with ⟨_, hreg⟩ | ⟨_, hreg⟩
    · rw [hreg]; rfl
    · rw [hreg]; rfl

theorem run_ops_spec (ops : List Op) (r : Registry) (k : Nat) (hk : r.nmodels = k)
    (h32 : k ≤ 32) :
    ∃ hs r1, run_ops ops r = some (hs, r1) ∧ hs = (List.range' k hs.length).map Int.ofNat ∧
      r1.nmodels = ((k + hs.length : Nat) : Int) ∧ k + hs.length ≤ 32 := by
  induction ops generalizing r k with
  | nil => exact ⟨[], r, rfl, rfl, by simpa using hk, by simpa using h32⟩
  | cons op ops ih =>
    cases op with
    | load env path use_mmap n_gpu_layers =>
      obtain ⟨res, hres⟩ := load_defined env r path use_mmap n_gpu_layers (by omega)
      rcases load_cases env r path use_mmap n_gpu_layers res hres with ⟨hret, hreg⟩ |
        ⟨p, m, c, _, _, _, _, h0, h1, hret, hreg⟩
      · obtain ⟨hs, r1, hrun, hhs, hn, hle⟩ := ih res.reg k (by rw [hreg, hk]) h32
        refine ⟨hs, r1, ?_, hhs, hn, hle⟩
        simp only [run_ops, Op.exec, hres, hrun, Op.handle, hret, if_true, List.nil_append]
      · have hn1 : res.reg.nmodels = ((k + 1 : Nat) : Int) := by
          rw [hreg]
          show r.nmodels + 1 = _
          rw [hk]; push_cast; ring
        obtain ⟨hs, r1, hrun, hhs, hn, hle⟩ := ih res.reg (k + 1) hn1 (by omega)
        have hne : ¬ (res.ret = -1) := by omega
        refine ⟨res.ret :: hs, r1, ?_, ?_, ?_, ?_⟩
        · simp only [run_ops, Op.exec, hres, hrun, Op.handle, if_neg hne, List.singleton_append]
        · rw [List.length_cons, List.range'_succ, List.map_cons, ← hhs, hret, hk]
          rfl
        · rw [hn, List.length_cons]; push_cast; ring
        · rw [List.length_cons]; omega
    | free model_id =>
      obtain ⟨res, hres⟩ := free_defined r model_id (by omega)
      have hnm := free_nmodels r model_id res hres
      obtain ⟨hs, r1, hrun, hhs, hn, hle⟩ := ih res.reg k (by rw [hnm, hk]) h32
      refine ⟨hs, r1, ?_, hhs, hn, hle⟩
      simp only [run_ops, Op.exec, hres, hrun, Op.handle, List.nil_append]

theorem run_ops_reachable (ops : List Op) (r : Registry) (hs : List Int) (r1 : Registry)
    (hr : Reachable r) (hrun : run_ops ops r = some (hs, r1)) : Reachable r1 := by
  induction ops generalizing r hs with
  | nil =>
    simp only [run_ops, Option.some.injEq, Prod.mk.injEq] at hrun
    rw [← hrun.2]; exact hr
  | cons op ops ih =>
    simp only [run_ops] at hrun
    cases hexec : op.exec r with
    | none => simp [hexec] at hrun
    | some res =>
      simp only [hexec] at hrun
      cases hrest : run_ops ops res.reg with
      | none => simp [hrest] at hrun
      | some x =>
        obtain ⟨hs1, r2⟩ := x
        simp only [hrest, Option.some.injEq, Prod.mk.injEq] at hrun
        have hr1 : Reachable res.reg := by
          cases op with
          | load env path use_mmap n_gpu_layers =>
            exact Reachable.load env path use_mmap n_gpu_layers res hr hexec
          | free model_id => exact Reachable.free model_id res hr hexec
        obtain ⟨_, hr2⟩ := hrun
        subst hr2
        exact ih res.reg hs1 hr1 hrest

/-- C17: for every sequence of loads and frees run from `llambo_cmodinit`, the
run is defined and the handles handed out by the successful loads are, in
order, 0, 1, 2, ..: each equals the number of loads that succeeded before it,
whatever frees came in between, so they are strictly increasing and never
repeat; `nmodels` is their number, and a further successful load returns that
number, a handle never handed out before, and changes no other slot. -/
theorem handles_count_successful_loads (ops : List Op) :
    ∃ hs r, run_ops ops llambo_cmodinit = some (hs, r) ∧
      hs = (List.range hs.length).map Int.ofNat ∧
      r.nmodels = (hs.length : Int) ∧
      hs.Pairwise (fun a b => a < b) ∧ hs.Nodup ∧
      (∀ (env : LoadEnv) (path : Option CStr) (use_mmap n_gpu_layers : Int) (res : Ret),
        llama_load_model env r path use_mmap n_gpu_layers = some res → res.ret ≠ -1 →
        res.ret = (hs.length : Int) ∧ res.ret ∉ hs ∧
        ∀ j : Int, j ≠ res.ret → res.reg.slot j = r.slot j) := by
  obtain ⟨hs, r, hrun, hhs, hn, _⟩ := run_ops_spec ops llambo_cmodinit 0 rfl (by omega)
  rw [← List.range_eq_range'] at hhs
  rw [Nat.zero_add] at hn
  have hpair : hs.Pairwise (fun a b => a < b) := by
    rw [hhs]
    refine List.Pairwise.map _ ?_ (List.pairwise_lt_range hs.length)
    intro a b hab
    exact Int.ofNat_lt.mpr hab
  refine ⟨hs, r, hrun, hhs, hn, hpair, ?_, ?_⟩
  · exact hpair.imp (fun hab => ne_of_lt hab)
  · intro env path use_mmap n_gpu_layers res hload hsucc
    rcases load_cases env r path use_mmap n_gpu_layers res hload with ⟨hret, _⟩ |
      ⟨p, m, c, _, _, _, _, h0, h1, hret, hreg⟩
    · exact absurd hret hsucc
    · refine ⟨by rw [hret, hn], ?_, ?_⟩
      · intro hmem
        rw [hhs] at hmem
        obtain ⟨a, ha, hae⟩ := List.mem_map.mp hmem
        rw [List.mem_range] at ha
        rw [hret, hn] at hae
        have : (a : Int) = (hs.length : Int) := hae
        omega
      · intro j hj
        rw [hreg, Registry.slot_setCount, Registry.slot_store_ne r _ j _ (by omega)]

/-- C13, as stated, fails: after 32 successful loads and the free of handle 0,
slot 0 is empty and only 31 models are held, yet a load on which the backend
succeeds returns -1. -/
theorem load_after_free_at_capacity_fails :
    (run_ops opsFull llambo_cmodinit).map (fun x =>
        (x.1.length, x.2.slot 0, x.2.occupied,
          (llama_load_model envGood x.2 (some pathM) 1 0).map Ret.ret)) =
      some (32, some none, 31, some (-1)) ∧
    envGood.malloc_ok = true ∧ envGood.model ≠ none ∧ envGood.ctx ≠ none := by
  refine ⟨by decide, rfl, by decide, by decide⟩

theorem teardown_both (lm : LlamaModel) (hm : lm.model ≠ none) (hc : lm.ctx ≠ none) :
    teardown lm = [Call.free_ctx lm.ctx, Call.free_model lm.model] := by
  simp [teardown, hm, hc]

/-- C13, amended: a free that brings the reference count to 0 destroys the
model (context first) and empties its slot, but the slot is not handed out
again and `nmodels` is not lowered.  After any run of loads and frees from
`llambo_cmodinit` in which 32 loads have succeeded, every further
`llama_load_model` returns -1 and leaves the registry as it was, also after
any held model is freed; while fewer than 32 loads have succeeded, a load with
a non-nil path on which the host succeeds succeeds.  The precondition of load
is on the number of loads that have succeeded, not on the number of models
held. -/
theorem load_refused_after_32_loads (ops : List Op) (hs : List Int) (r : Registry)
    (hrun : run_ops ops llambo_cmodinit = some (hs, r)) :
    (hs.length = 32 →
      (∀ (env : LoadEnv) (path : Option CStr) (use_mmap n_gpu_layers : Int),
        llama_load_model env r path use_mmap n_gpu_layers = some ⟨-1, r, []⟩) ∧
      (∀ (h : Int) (lm : LlamaModel), r.slot h = some (some lm) →
        ∃ res, llama_free_model r h = some res ∧ res.ret = 0 ∧ res.reg.slot h = some none ∧
          res.calls = [Call.free_ctx lm.ctx, Call.free_model lm.model] ∧
          ∀ (env : LoadEnv) (path : Option CStr) (use_mmap n_gpu_layers : Int),
            llama_load_model env res.reg path use_mmap n_gpu_layers =
              some ⟨-1, res.reg, []⟩)) ∧
    (hs.length < 32 →
      ∀ (env : LoadEnv) (p : CStr) (use_mmap n_gpu_layers : Int), env.succeeds →
        ∃ res, llama_load_model env r (some p) use_mmap n_gpu_layers = some res ∧
          res.ret = (hs.length : Int)) := by
  obtain ⟨hs1, r1, hrun1, _, hn, _⟩ := run_ops_spec ops llambo_cmodinit 0 rfl (by omega)
  rw [hrun, Option.some.injEq, Prod.mk.injEq] at hrun1
  obtain ⟨h1, h2⟩ := hrun1
  subst h1 h2
  rw [Nat.zero_add] at hn
  have hinv := reachable_inv r (run_ops_reachable ops _ hs r Reachable.init hrun)
  constructor
  · intro hfull
    have hcap : (32 : Int) ≤ r.nmodels := by rw [hn, hfull]; norm_num
    refine ⟨fun env path use_mmap n_gpu_layers => load_full env r path _ _ hcap, ?_⟩
    intro h lm hslot
    obtain ⟨h0, hlt⟩ := hinv.occupied_range h lm hslot
    obtain ⟨hm, hc, hrc⟩ := hinv.sound h lm hslot
    have h32 := (Registry.slot_lt r h _ hslot).2
    refine ⟨_, free_last_ref r h lm hlt hslot hrc, rfl,
      Registry.slot_store_same r h none h0 h32, ?_, ?_⟩
    · exact teardown_both _ hm hc
    · intro env path use_mmap n_gpu_layers
      exact load_full env _ path _ _ hcap
  · intro hlt env p use_mmap n_gpu_layers henv
    obtain ⟨res, hres, hret, _⟩ := load_ok env r p use_mmap n_gpu_layers henv hinv.lower
      (by rw [hn]; omega)
    exact ⟨res, hres, by rw [hret, hn]⟩

/-- C13, worked instance: in the registry after 32 successful loads and one
free every load is refused, before and after a further free; in the fresh
registry a load on which the host succeeds returns handle 0. -/
theorem load_refused_after_32_loads_witness :
    ((∀ (env : LoadEnv) (path : Option CStr) (use_mmap n_gpu_layers : Int),
        llama_load_model env regFull path use_mmap n_gpu_layers = some ⟨-1, regFull, []⟩) ∧
      (∀ (h : Int) (lm : LlamaModel), regFull.slot h = some (some lm) →
        ∃ res, llama_free_model regFull h = some res ∧ res.ret = 0 ∧
          res.reg.slot h = some none ∧
          res.calls = [Call.free_ctx lm.ctx, Call.free_model lm.model] ∧
          ∀ (env : LoadEnv) (path : Option CStr) (use_mmap n_gpu_layers : Int),
            llama_load_model env res.reg path use_mmap n_gpu_layers =
              some ⟨-1, res.reg, []⟩)) ∧
    (∀ (env : LoadEnv) (p : CStr) (use_mmap n_gpu_layers : Int), env.succeeds →
      ∃ res, llama_load_model env llambo_cmodinit (some p) use_mmap n_gpu_layers = some res ∧
        res.ret = 0) :=
  ⟨(load_refused_after_32_loads opsFull hsFull regFull (by decide)).1 (by decide),
    (load_refused_after_32_loads [] [] llambo_cmodinit rfl).2 (by decide)⟩

/-! ## Claims about the tokenizer facade -/

theorem tokenize_invalid {σ α : Type} (b : Backend σ α) (s : σ) (malloc_ok : Bool)
    (r : Registry) (h : Int) (text : Option CStr)
    (hinv : h < 0 ∨ r.nmodels ≤ h ∨ r.slot h = some none ∨ text = none) :
    llama_tokenize b s malloc_ok r h text = some ⟨none, r, []⟩ := by
  unfold llama_tokenize
  by_cases hr : h < 0 ∨ h ≥ r.nmodels ∨ text = none
  · rw [if_pos hr]
  · rw [if_neg hr]
    rcases hinv with h1 | h1 | h1 | h1
    · exact absurd (Or.inl h1) hr
    · exact absurd (Or.inr (Or.inl h1)) hr
    · rw [h1]
    · exact absurd (Or.inr (Or.inr h1)) hr

theorem tokenize_occupied {σ α : Type} (b : Backend σ α) (s : σ) (malloc_ok : Bool)
    (r : Registry) (h : Int) (lm : LlamaModel) (txt : CStr) (hlt : h < r.nmodels)
    (hslot : r.slot h = some (some lm)) (hctx : lm.ctx ≠ none) :
    llama_tokenize b s malloc_ok r h (some txt) =
      if malloc_ok = false then some ⟨none, r, []⟩
      else if (b.tokenize s lm.model txt).1 < 0 then
        some ⟨none, r, [Call.tokenize lm.model txt]⟩
      else some ⟨some ((b.tokenize s lm.model txt).2.take (b.tokenize s lm.model txt).1.toNat),
        r, [Call.tokenize lm.model txt]⟩ := by
  have h0 := (Registry.slot_lt r h _ hslot).1
  have hr : ¬ (h < 0 ∨ h ≥ r.nmodels ∨ some txt = none) := by
    simp only [reduceCtorEq, or_false]; omega
  unfold llama_tokenize
  rw [if_neg hr, hslot]
  simp only [hctx, if_false, Option.getD_some]

/-- C14: on every reachable registry `llama_tokenize` is defined and returns
the registry it was given.  It returns `H` for a handle that is negative, at
least `nmodels` or names an empty slot, for a nil text, and whenever the
backend reports a negative token count; for an occupied slot, a non-nil text,
the buffer allocated and a reported count `n` with `0 <= n <= 4096` it returns
the first `n` ids of the buffer, all `n` of them when the backend wrote that
many. -/
theorem tokenize_all_or_nothing {σ α : Type} (b : Backend σ α) (s : σ) (malloc_ok : Bool)
    (r : Registry) (h : Int) (text : Option CStr) (hr : Reachable r) :
    (∃ res, llama_tokenize b s malloc_ok r h text = some res ∧ res.reg = r) ∧
      ((h < 0 ∨ r.nmodels ≤ h ∨ r.slot h = some none ∨ text = none) →
        llama_tokenize b s malloc_ok r h text = some ⟨none, r, []⟩) ∧
      (∀ (lm : LlamaModel) (txt : CStr), r.slot h = some (some lm) → text = some txt →
        ((b.tokenize s lm.model txt).1 < 0 →
          ∃ res, llama_tokenize b s malloc_ok r h text = some res ∧ res.tokens = none ∧
            res.reg = r) ∧
        (malloc_ok = true → 0 ≤ (b.tokenize s lm.model txt).1 →
          (b.tokenize s lm.model txt).1 ≤ 4096 →
          llama_tokenize b s malloc_ok r h text =
              some ⟨some ((b.tokenize s lm.model txt).2.take
                (b.tokenize s lm.model txt).1.toNat), r, [Call.tokenize lm.model txt]⟩ ∧
            ((b.tokenize s lm.model txt).1.toNat ≤ (b.tokenize s lm.model txt).2.length →
              (((b.tokenize s lm.model txt).2.take
                (b.tokenize s lm.model txt).1.toNat).length : Int) =
                (b.tokenize s lm.model txt).1))) := by
  have hinv := reachable_inv r hr
  have hocc : ∀ (lm : LlamaModel) (txt : CStr), r.slot h = some (some lm) → text = some txt →
      llama_tokenize b s malloc_ok r h text =
        if malloc_ok = false then some ⟨none, r, []⟩
        else if (b.tokenize s lm.model txt).1 < 0 then
          some ⟨none, r, [Call.tokenize lm.model txt]⟩
        else some ⟨some ((b.tokenize s lm.model txt).2.take
          (b.tokenize s lm.model txt).1.toNat), r, [Call.tokenize lm.model txt]⟩ := by
    intro lm txt hslot htext
    rw [htext]
    exact tokenize_occupied b s malloc_ok r h lm txt (hinv.occupied_range h lm hslot).2 hslot
      (hinv.sound h lm hslot).2.1
  refine ⟨?_, tokenize_invalid b s malloc_ok r h text, ?_⟩
  · by_cases hx : (∃ lm, r.slot h = some (some lm)) ∧ ∃ txt, text = some txt
    · obtain ⟨⟨lm, hslot⟩, ⟨txt, htext⟩⟩ := hx
      rw [hocc lm txt hslot htext]
      split_ifs
      all_goals exact ⟨_, rfl, rfl⟩
    · refine ⟨_, tokenize_invalid b s malloc_ok r h text ?_, rfl⟩
      by_cases hs : ∃ lm, r.slot h = some (some lm)
      · have ht : text = none := by
          cases text with
          | none => rfl
          | some txt => exact absurd ⟨hs, txt, rfl⟩ hx
        exact Or.inr (Or.inr (Or.inr ht))
      · rcases hinv.empty_cases h hs with h1 | h1 | h1
        · exact Or.inl h1
        · exact Or.inr (Or.inl h1)
        · exact Or.inr (Or.inr (Or.inl h1))
  · intro lm txt hslot htext
    rw [hocc lm txt hslot htext]
    constructor
    · intro hneg
      split_ifs
      all_goals exact ⟨_, rfl, rfl, rfl⟩
    · intro hm h0 _
      have hnot : ¬ ((b.tokenize s lm.model txt).1 < 0) := by omega
      simp only [hm, Bool.true_eq_false, if_false, hnot, true_and]
      intro hlen
      rw [List.length_take, min_eq_left hlen]
      exact Int.toNat_of_nonneg h0

/-- C14, worked instance: the two-byte prompt on the registry holding one
model gives the two token ids of the stub. -/
theorem tokenize_all_or_nothing_witness :
    llama_tokenize stubABC 0 true regOne 0 (some promptHi) =
      some ⟨some [104, 105], regOne, [Call.tokenize (some 7) promptHi]⟩ :=
  ((tokenize_all_or_nothing stubABC 0 true regOne 0 (some promptHi)
    (Reachable.load envGood (some pathM) 1 0
      ⟨0, regOne, [Call.backend_init, Call.load_model_from_file pathM 1 0,
        Call.new_context_with_model (some 7)]⟩ Reachable.init (by decide))).2.2
    lmGood promptHi (by decide) rfl).2 rfl (by decide) (by decide) |>.1

/-! ## Claims about the returned text -/

theorem takeWhile_terminated (acc : CStr) :
    (acc ++ [0]).takeWhile (fun c => c != 0) = acc.takeWhile (fun c => c != 0) := by
  induction acc with
  | nil => rfl
  | cons c cs ih =>
    by_cases hc : (c != 0) = true
    · simp only [List.cons_append, List.takeWhile_cons, hc, if_true, ih]
    · simp only [List.cons_append, List.takeWhile_cons, hc, if_false]
      simp

/-- C15, as stated, fails: on `stubNulEog` the loop ends at the
end-of-generation token with the three bytes `A NUL B` accumulated, and
`llama_infer` returns the one byte `A`. -/
theorem infer_text_cut_at_nul :
    ReachesLoop stubNulEog 0 memGood regOne 0 lmGood promptHi ∧
      (infer_loop stubNulEog lmGood.model lmGood.ctx 5 5
        (loop_entry stubNulEog 0 lmGood promptHi)).result = [65, 0, 66] ∧
      (llama_infer stubNulEog 0 memGood regOne 0 (some promptHi) 5 0).map InferResult.text =
        some [65] :=
  ⟨⟨by decide, by decide, by decide, rfl, rfl, by decide, by decide⟩, by decide, by decide⟩

/-- C15, amended: for every call that reaches the loop, with `acc` the bytes
accumulated when the loop ends, the returned text is `acc` read as a
NUL-terminated C string: the bytes of `acc` before its first zero byte.  It is
never longer than `acc`, and it is `acc` itself exactly when `acc` holds no
zero byte. -/
theorem infer_text_is_c_string {σ α : Type} [LinearOrder α] (b : Backend σ α) (s : σ)
    (mem : InferAlloc) (r : Registry) (h : Int) (lm : LlamaModel) (text : CStr)
    (max_tokens : Int) (temperature : Float) (hready : ReachesLoop b s mem r h lm text) :
    ∃ res, llama_infer b s mem r h (some text) max_tokens temperature = some res ∧
      res.text = (infer_loop b lm.model lm.ctx max_tokens max_tokens.toNat
        (loop_entry b s lm text)).result.takeWhile (fun c => c != 0) ∧
      res.text.length ≤ (infer_loop b lm.model lm.ctx max_tokens max_tokens.toNat
        (loop_entry b s lm text)).result.length ∧
      (res.text = (infer_loop b lm.model lm.ctx max_tokens max_tokens.toNat
          (loop_entry b s lm text)).result ↔
        ∀ c ∈ (infer_loop b lm.model lm.ctx max_tokens max_tokens.toNat
          (loop_entry b s lm text)).result, c ≠ 0) := by
  refine ⟨_, infer_reaches_loop b s mem r h lm text max_tokens temperature hready, ?_, ?_, ?_⟩
  · simp only [mkstring_eq_takeWhile, takeWhile_terminated]
  · simp only [mkstring_eq_takeWhile, takeWhile_terminated]
    exact (List.takeWhile_sublist _).length_le
  · simp only [mkstring_eq_takeWhile, takeWhile_terminated]
    rw [List.takeWhile_eq_self_iff]
    simp

/-- C15, worked instance: on the `A, B, C, EOS` stub the returned text is the
accumulated `ABC`. -/
theorem infer_text_is_c_string_witness :
    ∃ res, llama_infer stubABC 0 memGood regOne 0 (some promptHi) 10 0 = some res ∧
      res.text = (infer_loop stubABC lmGood.model lmGood.ctx 10 (10 : Int).toNat
        (loop_entry stubABC 0 lmGood promptHi)).result.takeWhile (fun c => c != 0) ∧
      res.text.length ≤ (infer_loop stubABC lmGood.model lmGood.ctx 10 (10 : Int).toNat
        (loop_entry stubABC 0 lmGood promptHi)).result.length ∧
      (res.text = (infer_loop stubABC lmGood.model lmGood.ctx 10 (10 : Int).toNat
          (loop_entry stubABC 0 lmGood promptHi)).result ↔
        ∀ c ∈ (infer_loop stubABC lmGood.model lmGood.ctx 10 (10 : Int).toNat
          (loop_entry stubABC 0 lmGood promptHi)).result, c ≠ 0) :=
  infer_text_is_c_string stubABC 0 memGood regOne 0 lmGood promptHi 10 0
    ⟨by decide, by decide, by decide, rfl, rfl, by decide, by decide⟩

/-! ## Claims about shutdown -/

theorem teardown_range_eq_flatMap (r : Registry) (count i : Nat) :
    teardown_range r count i = (List.range' i count).flatMap (slot_teardown r) := by
  induction count generalizing i with
  | zero => rfl
  | succ n ih => rw [teardown_range, List.range'_succ, List.flatMap_cons, ih]

theorem backend_free_not_mem_teardown (lm : LlamaModel) : Call.backend_free ∉ teardown lm := by
  unfold teardown
  intro hmem
  rw [List.mem_append] at hmem
  rcases hmem with hm | hm
  · split_ifs at hm <;> simp at hm
  · split_ifs at hm <;> simp at hm

theorem backend_free_not_mem_teardown_range (r : Registry) (count i : Nat) :
    Call.backend_free ∉ teardown_range r count i := by
  induction count generalizing i with
  | zero => simp [teardown_range]
  | succ n ih =>
    rw [teardown_range, List.mem_append]
    rintro (hm | hm)
    · unfold slot_teardown at hm
      split at hm
      · exact backend_free_not_mem_teardown _ hm
      · simp at hm
    · exact ih (i + 1) hm

/-- C16: on every reachable registry `llambo_cmodcleanup` is defined; its
backend calls are the teardown of the slots 0, 1, .., `nmodels - 1` in index
order, where every occupied slot lies and is torn down by `llama_free` of its
context followed by `llama_free_model` of its model, and then, last and once,
`llama_backend_free`.  It leaves every slot empty and `nmodels = 0`, after
which free, tokenize, generate and describe reject every handle. -/
theorem cleanup_tears_down_everything (r : Registry) (hr : Reachable r) :
    ∃ r1, llambo_cmodcleanup r =
        some (r1, (List.range r.nmodels.toNat).flatMap (slot_teardown r) ++
          [Call.backend_free]) ∧
      Call.backend_free ∉ (List.range r.nmodels.toNat).flatMap (slot_teardown r) ∧
      (∀ (i : Int) (lm : LlamaModel), r.slot i = some (some lm) →
        i.toNat ∈ List.range r.nmodels.toNat ∧
        slot_teardown r i.toNat = [Call.free_ctx lm.ctx, Call.free_model lm.model]) ∧
      r1.nmodels = 0 ∧ (∀ j : Int, 0 ≤ j → j < 32 → r1.slot j = some none) ∧
      (∀ h : Int,
        llama_free_model r1 h = some ⟨-1, r1, []⟩ ∧
        (∀ (σ α : Type) (b : Backend σ α) (s : σ) (malloc_ok : Bool) (text : Option CStr),
          llama_tokenize b s malloc_ok r1 h text = some ⟨none, r1, []⟩) ∧
        (∀ (σ α : Type) (_ : LinearOrder α) (b : Backend σ α) (s : σ) (mem : InferAlloc)
          (prompt : Option CStr) (max_tokens : Int) (temperature : Float),
          llama_infer b s mem r1 h prompt max_tokens temperature = some ⟨[], s, []⟩) ∧
        (∀ (σ α : Type) (b : Backend σ α) (s : σ),
          llama_get_model_info b s r1 h = some [])) := by
  have hinv := reachable_inv r hr
  obtain ⟨r1, hclean, hn, _⟩ := cleanup_spec r hinv.upper
  obtain ⟨_, _, hall, _⟩ := inv_cleanup r r1 _ hinv hclean
  have hrange : teardown_range r r.nmodels.toNat 0 =
      (List.range r.nmodels.toNat).flatMap (slot_teardown r) := by
    rw [teardown_range_eq_flatMap, List.range_eq_range']
  refine ⟨r1, by rw [hclean, hrange], ?_, ?_, hn, hall, ?_⟩
  · rw [← hrange]
    exact backend_free_not_mem_teardown_range r _ 0
  · intro i lm hslot
    obtain ⟨h0, hlt⟩ := hinv.occupied_range i lm hslot
    obtain ⟨hm, hc, _⟩ := hinv.sound i lm hslot
    refine ⟨by rw [List.mem_range]; omega, ?_⟩
    have hcast : ((i.toNat : Nat) : Int) = i := Int.toNat_of_nonneg h0
    unfold slot_teardown
    rw [hcast, hslot]
    exact teardown_both lm hm hc
  · intro h
    have hrej : h < 0 ∨ r1.nmodels ≤ h := by
      rw [hn]; omega
    refine ⟨free_invalid r1 h (by tauto), ?_, ?_, ?_⟩
    · intro σ α b s malloc_ok text
      exact tokenize_invalid b s malloc_ok r1 h text (by tauto)
    · intro σ α _ b s mem prompt max_tokens temperature
      exact infer_invalid b s mem r1 h prompt max_tokens temperature (by tauto)
    · intro σ α b s
      exact info_invalid b s r1 h (by tauto)

/-- C16, worked instance: cleanup of the registry holding one model frees
context 9, then model 7, then the backend. -/
theorem cleanup_tears_down_everything_witness :
    (∃ r1, llambo_cmodcleanup regOne =
        some (r1, (List.range regOne.nmodels.toNat).flatMap (slot_teardown regOne) ++
          [Call.backend_free]) ∧
      Call.backend_free ∉ (List.range regOne.nmodels.toNat).flatMap (slot_teardown regOne) ∧
      (∀ (i : Int) (lm : LlamaModel), regOne.slot i = some (some lm) →
        i.toNat ∈ List.range regOne.nmodels.toNat ∧
        slot_teardown regOne i.toNat = [Call.free_ctx lm.ctx, Call.free_model lm.model]) ∧
      r1.nmodels = 0 ∧ (∀ j : Int, 0 ≤ j → j < 32 → r1.slot j = some none) ∧
      (∀ h : Int,
        llama_free_model r1 h = some ⟨-1, r1, []⟩ ∧
        (∀ (σ α : Type) (b : Backend σ α) (s : σ) (malloc_ok : Bool) (text : Option CStr),
          llama_tokenize b s malloc_ok r1 h text = some ⟨none, r1, []⟩) ∧
        (∀ (σ α : Type) (_ : LinearOrder α) (b : Backend σ α) (s : σ) (mem : InferAlloc)
          (prompt : Option CStr) (max_tokens : Int) (temperature : Float),
          llama_infer b s mem r1 h prompt max_tokens temperature = some ⟨[], s, []⟩) ∧
        (∀ (σ α : Type) (b : Backend σ α) (s : σ),
          llama_get_model_info b s r1 h = some []))) ∧
    (List.range regOne.nmodels.toNat).flatMap (slot_teardown regOne) ++ [Call.backend_free] =
      [Call.free_ctx (some 9), Call.free_model (some 7), Call.backend_free] :=
  ⟨cleanup_tears_down_everything regOne
    (Reachable.load envGood (some pathM) 1 0
      ⟨0, regOne, [Call.backend_init, Call.load_model_from_file pathM 1 0,
        Call.new_context_with_model (some 7)]⟩ Reachable.init (by decide)), by decide⟩

/-! ## Claims about positions and termination -/

theorem infer_iter_cases {σ α : Type} [LinearOrder α] (b : Backend σ α) (model ctx : Ptr)
    (st : Gen σ) :
    ((infer_iter b model ctx st).1.calls = st.calls ++ [Call.get_logits ctx] ∧
        (infer_iter b model ctx st).2 = false ∧
        (infer_iter b model ctx st).1.n_past = st.n_past ∧
        (infer_iter b model ctx st).1.n_gen = st.n_gen) ∨
      (∃ t, (infer_iter b model ctx st).1.calls = st.calls ++ [Call.get_logits ctx,
            Call.token_to_piece ctx t, Call.decode_token ctx t st.n_past] ∧
        (((infer_iter b model ctx st).2 = false ∧
            (infer_iter b model ctx st).1.n_past = st.n_past ∧
            (infer_iter b model ctx st).1.n_gen = st.n_gen) ∨
          ((infer_iter b model ctx st).2 = true ∧
            (infer_iter b model ctx st).1.n_past = st.n_past + 1 ∧
            (infer_iter b model ctx st).1.n_gen = st.n_gen + 1))) := by
  unfold infer_iter
  cases b.get_logits st.s ctx with
  | none => exact Or.inl ⟨rfl, rfl, rfl, rfl⟩
  | some logits =>
    simp only []
    split_ifs
    · exact Or.inl ⟨rfl, rfl, rfl, rfl⟩
    · exact Or.inr ⟨_, rfl, Or.inl ⟨rfl, rfl, rfl⟩⟩
    · exact Or.inr ⟨_, rfl, Or.inr ⟨rfl, rfl, rfl⟩⟩

theorem decodePositions_append (l1 l2 : List Call) :
    decodePositions (l1 ++ l2) = decodePositions l1 ++ decodePositions l2 := by
  simp [decodePositions, List.filterMap_append]

theorem promptDecodes_append (l1 l2 : List Call) :
    promptDecodes (l1 ++ l2) = promptDecodes l1 ++ promptDecodes l2 := by
  simp [promptDecodes, List.filter_append]

/-- What the loop adds to the trace and to the counters, from any state and
for any bound on the number of passes: `m` single-token decodes at the
positions `n_past, n_past + 1, ..`, no prompt decode, and as much on `n_past`
as on `n_gen`, which counts the decodes that succeeded. -/
theorem infer_loop_positions {σ α : Type} [LinearOrder α] (b : Backend σ α) (model ctx : Ptr)
    (max_tokens : Int) (fuel : Nat) (st : Gen σ) :
    ∃ m : Nat,
      decodePositions (infer_loop b model ctx max_tokens fuel st).calls =
        decodePositions st.calls ++ (List.range m).map (fun (k : Nat) => st.n_past + (k : Int)) ∧
      promptDecodes (infer_loop b model ctx max_tokens fuel st).calls =
        promptDecodes st.calls ∧
      m ≤ fuel ∧ (m = 0 ∨ st.n_gen + (m : Int) ≤ max_tokens) ∧
      (infer_loop b model ctx max_tokens fuel st).n_past - st.n_past =
        (infer_loop b model ctx max_tokens fuel st).n_gen - st.n_gen ∧
      (infer_loop b model ctx max_tokens fuel st).n_gen - st.n_gen ≤ (m : Int) ∧
      (m : Int) ≤ (infer_loop b model ctx max_tokens fuel st).n_gen - st.n_gen + 1 ∧
      st.n_gen ≤ (infer_loop b model ctx max_tokens fuel st).n_gen := by
  induction fuel generalizing st with
  | zero =>
    refine ⟨0, ?_, rfl, le_refl _, Or.inl rfl, ?_, ?_, ?_, ?_⟩ <;> simp [infer_loop]
  | succ f ih =>
    rw [infer_loop]
    by_cases hlt : st.n_gen < max_tokens
    · rw [if_pos hlt]
      rcases infer_iter_cases b model ctx st with ⟨hc, hflag, hp, hg⟩ |
        ⟨t, hc, ⟨hflag, hp, hg⟩ | ⟨hflag, hp, hg⟩⟩
      · simp only [hflag, Bool.false_eq_true, if_false]
        refine ⟨0, ?_, ?_, Nat.zero_le _, Or.inl rfl, ?_, ?_, ?_, ?_⟩
        · rw [hc, decodePositions_append]; simp [decodePositions, Call.decodePos]
        · rw [hc, promptDecodes_append]; simp [promptDecodes, Call.isPromptDecode]
        · rw [hp, hg]; simp
        · rw [hg]; simp
        · rw [hg]; simp
        · rw [hg]
      · simp only [hflag, Bool.false_eq_true, if_false]
        refine ⟨1, ?_, ?_, by omega, Or.inr (by push_cast; omega), ?_, ?_, ?_, ?_⟩
        · rw [hc, decodePositions_append]
          simp [decodePositions, Call.decodePos, List.range_succ]
        · rw [hc, promptDecodes_append]; simp [promptDecodes, Call.isPromptDecode]
        · rw [hp, hg]; simp
        · rw [hg]; simp
        · rw [hg]; simp
        · rw [hg]
      · simp only [hflag, if_true]
        obtain ⟨m, h1, h2, h3, h4, h5, h6, h7, h8⟩ := ih (infer_iter b model ctx st).1
        rw [hp, hg] at *
        refine ⟨m + 1, ?_, ?_, by omega, Or.inr (by push_cast; omega), by omega,
          by push_cast; omega, by push_cast; omega, by omega⟩
        · rw [h1, hc, decodePositions_append, List.range_succ_eq_map, List.map_cons,
            List.map_map, List.append_assoc]
          congr 1
          simp only [decodePositions, Call.decodePos, List.filterMap_cons, List.filterMap_nil,
            Nat.cast_zero, add_zero, List.singleton_append, List.cons.injEq, true_and]
          apply List.map_congr_left
          intro k _
          simp only [Function.comp_apply, Nat.succ_eq_add_one, Nat.cast_add, Nat.cast_one]
          ring
        · rw [h2, hc, promptDecodes_append]; simp [promptDecodes, Call.isPromptDecode]
    · rw [if_neg hlt]
      refine ⟨0, ?_, rfl, Nat.zero_le _, Or.inl rfl, ?_, ?_, ?_, ?_⟩ <;> simp

theorem infer_prompt_decode_fails {σ α : Type} [LinearOrder α] (b : Backend σ α) (s : σ)
    (mem : InferAlloc) (r : Registry) (h : Int) (lm : LlamaModel) (text : CStr)
    (max_tokens : Int) (temperature : Float) (hlt : h < r.nmodels)
    (hslot : r.slot h = some (some lm)) (hctx : lm.ctx ≠ none)
    (hm1 : mem.tokens_ok = true) (hm2 : mem.result_ok = true)
    (htok : 0 ≤ (b.tokenize s lm.model text).1)
    (hdec : (b.decode s lm.ctx ((b.tokenize s lm.model text).2.take
      (b.tokenize s lm.model text).1.toNat) 0).1 ≠ 0) :
    llama_infer b s mem r h (some text) max_tokens temperature =
      some ⟨[], (b.decode s lm.ctx ((b.tokenize s lm.model text).2.take
          (b.tokenize s lm.model text).1.toNat) 0).2,
        [Call.tokenize lm.model text, Call.decode_prompt lm.ctx
          ((b.tokenize s lm.model text).2.take (b.tokenize s lm.model text).1.toNat) 0]⟩ := by
  have h0 := (Registry.slot_lt r h _ hslot).1
  have hr : ¬ (h < 0 ∨ h ≥ r.nmodels ∨ some text = none) := by
    simp only [reduceCtorEq, or_false]; omega
  have htok1 : ¬ ((b.tokenize s lm.model text).1 < 0) := by omega
  unfold llama_infer
  rw [if_neg hr, hslot]
  simp only [hctx, hm1, hm2, if_false, Option.getD_some, htok1, hdec, ne_eq, not_false_eq_true,
    if_true, Bool.true_eq_false, mkstring_emptyLit]

/-- C18: in a `llama_infer` call on an occupied slot with a non-nil context,
both buffers allocated and a prompt of `n >= 0` tokens, the prompt is decoded
once, as one batch (the first `n` ids of the token buffer) at position 0; the
single-token decodes, `m` of them with `m <= max_tokens`, are submitted at the
positions `n, n + 1, .., n + m - 1` in that order; in the loop the position
counter stays `n` plus the number of decodes that succeeded; and the bound on
the number of passes in `llama_infer` never cuts the loop short, so the call
returns for every backend. -/
theorem infer_positions_and_termination {σ α : Type} [LinearOrder α] (b : Backend σ α)
    (s : σ) (mem : InferAlloc) (r : Registry) (h : Int) (lm : LlamaModel) (text : CStr)
    (max_tokens : Int) (temperature : Float) (hlt : h < r.nmodels)
    (hslot : r.slot h = some (some lm)) (hctx : lm.ctx ≠ none)
    (hm1 : mem.tokens_ok = true) (hm2 : mem.result_ok = true)
    (htok : 0 ≤ (b.tokenize s lm.model text).1) :
    ∃ (res : InferResult σ) (m : Nat),
      llama_infer b s mem r h (some text) max_tokens temperature = some res ∧
      promptDecodes res.calls = [Call.decode_prompt lm.ctx
        ((b.tokenize s lm.model text).2.take (b.tokenize s lm.model text).1.toNat) 0] ∧
      ((b.tokenize s lm.model text).1.toNat ≤ (b.tokenize s lm.model text).2.length →
        ((((b.tokenize s lm.model text).2.take
          (b.tokenize s lm.model text).1.toNat).length : Nat) : Int) =
          (b.tokenize s lm.model text).1) ∧
      decodePositions res.calls =
        (List.range m).map (fun (k : Nat) => (b.tokenize s lm.model text).1 + (k : Int)) ∧
      m ≤ max_tokens.toNat ∧
      (∀ extra : Nat,
        infer_loop b lm.model lm.ctx max_tokens (max_tokens.toNat + extra)
            (loop_entry b s lm text) =
          infer_loop b lm.model lm.ctx max_tokens max_tokens.toNat (loop_entry b s lm text)) ∧
      ((infer_loop b lm.model lm.ctx max_tokens max_tokens.toNat
          (loop_entry b s lm text)).n_past =
        (b.tokenize s lm.model text).1 +
          (infer_loop b lm.model lm.ctx max_tokens max_tokens.toNat
            (loop_entry b s lm text)).n_gen) ∧
      0 ≤ (infer_loop b lm.model lm.ctx max_tokens max_tokens.toNat
        (loop_entry b s lm text)).n_gen ∧
      ((b.decode s lm.ctx ((b.tokenize s lm.model text).2.take
          (b.tokenize s lm.model text).1.toNat) 0).1 = 0 →
        (infer_loop b lm.model lm.ctx max_tokens max_tokens.toNat
          (loop_entry b s lm text)).n_gen ≤ (m : Int) ∧
        (m : Int) ≤ (infer_loop b lm.model lm.ctx max_tokens max_tokens.toNat
          (loop_entry b s lm text)).n_gen + 1) := by
  have hfuel : ∀ extra : Nat,
      infer_loop b lm.model lm.ctx max_tokens (max_tokens.toNat + extra)
          (loop_entry b s lm text) =
        infer_loop b lm.model lm.ctx max_tokens max_tokens.toNat (loop_entry b s lm text) :=
    fun extra => infer_loop_fuel b lm.model lm.ctx max_tokens max_tokens.toNat extra _
      (by simp [loop_entry])
  have hbatch : (b.tokenize s lm.model text).1.toNat ≤ (b.tokenize s lm.model text).2.length →
      ((((b.tokenize s lm.model text).2.take
        (b.tokenize s lm.model text).1.toNat).length : Nat) : Int) =
        (b.tokenize s lm.model text).1 := by
    intro hlen
    rw [List.length_take, min_eq_left hlen]
    exact Int.toNat_of_nonneg htok
  obtain ⟨m, h1, h2, h3, h4, h5, h6, h7, h8⟩ := infer_loop_positions b lm.model lm.ctx
    max_tokens max_tokens.toNat (loop_entry b s lm text)
  have hentry_past : (loop_entry b s lm text).n_past = (b.tokenize s lm.model text).1 := by
    simp [loop_entry]
  have hentry_gen : (loop_entry b s lm text).n_gen = 0 := rfl
  rw [hentry_past, hentry_gen] at h5
  rw [hentry_gen] at h6 h7 h8
  by_cases hdec : (b.decode s lm.ctx ((b.tokenize s lm.model text).2.take
      (b.tokenize s lm.model text).1.toNat) 0).1 = 0
  · refine ⟨_, m, infer_reaches_loop b s mem r h lm text max_tokens temperature
      ⟨hlt, hslot, hctx, hm1, hm2, htok, hdec⟩, ?_, hbatch, ?_, h3, hfuel, by omega, by omega,
      fun _ => ⟨by omega, by omega⟩⟩
    · rw [h2]
      simp [promptDecodes, loop_entry, Call.isPromptDecode]
    · rw [h1, hentry_past]
      simp [decodePositions, loop_entry, Call.decodePos]
  · refine ⟨_, 0, infer_prompt_decode_fails b s mem r h lm text max_tokens temperature hlt
      hslot hctx hm1 hm2 htok hdec, ?_, hbatch, ?_, Nat.zero_le _, hfuel, by omega, by omega,
      fun hx => absurd hx hdec⟩
    · simp [promptDecodes, Call.isPromptDecode]
    · simp [decodePositions, Call.decodePos]

/-- C18, worked instance: the `A, B, C, EOS` stub with a two-token prompt. -/
theorem infer_positions_and_termination_witness :
    decodePositions ((llama_infer stubABC 0 memGood regOne 0 (some promptHi) 10 0).map
        InferResult.calls |>.getD []) = [2, 3, 4] ∧
      ∃ (res : InferResult Nat) (m : Nat),
        llama_infer stubABC 0 memGood regOne 0 (some promptHi) 10 0 = some res ∧
        promptDecodes res.calls = [Call.decode_prompt lmGood.ctx
          ((stubABC.tokenize 0 lmGood.model promptHi).2.take
            (stubABC.tokenize 0 lmGood.model promptHi).1.toNat) 0] ∧
        ((stubABC.tokenize 0 lmGood.model promptHi).1.toNat ≤
            (stubABC.tokenize 0 lmGood.model promptHi).2.length →
          ((((stubABC.tokenize 0 lmGood.model promptHi).2.take
            (stubABC.tokenize 0 lmGood.model promptHi).1.toNat).length : Nat) : Int) =
            (stubABC.tokenize 0 lmGood.model promptHi).1) ∧
        decodePositions res.calls = (List.range m).map
          (fun (k : Nat) => (stubABC.tokenize 0 lmGood.model promptHi).1 + (k : Int)) ∧
        m ≤ (10 : Int).toNat ∧
        (∀ extra : Nat,
          infer_loop stubABC lmGood.model lmGood.ctx 10 ((10 : Int).toNat + extra)
              (loop_entry stubABC 0 lmGood promptHi) =
            infer_loop stubABC lmGood.model lmGood.ctx 10 (10 : Int).toNat
              (loop_entry stubABC 0 lmGood promptHi)) ∧
        ((infer_loop stubABC lmGood.model lmGood.ctx 10 (10 : Int).toNat
            (loop_entry stubABC 0 lmGood promptHi)).n_past =
          (stubABC.tokenize 0 lmGood.model promptHi).1 +
            (infer_loop stubABC lmGood.model lmGood.ctx 10 (10 : Int).toNat
              (loop_entry stubABC 0 lmGood promptHi)).n_gen) ∧
        0 ≤ (infer_loop stubABC lmGood.model lmGood.ctx 10 (10 : Int).toNat
          (loop_entry stubABC 0 lmGood promptHi)).n_gen ∧
        ((stubABC.decode 0 lmGood.ctx ((stubABC.tokenize 0 lmGood.model promptHi).2.take
            (stubABC.tokenize 0 lmGood.model promptHi).1.toNat) 0).1 = 0 →
          (infer_loop stubABC lmGood.model lmGood.ctx 10 (10 : Int).toNat
            (loop_entry stubABC 0 lmGood promptHi)).n_gen ≤ (m : Int) ∧
          (m : Int) ≤ (infer_loop stubABC lmGood.model lmGood.ctx 10 (10 : Int).toNat
            (loop_entry stubABC 0 lmGood promptHi)).n_gen + 1) :=
  ⟨by decide, infer_positions_and_termination stubABC 0 memGood regOne 0 lmGood promptHi 10 0
    (by decide) (by decide) (by decide) rfl rfl (by decide)⟩

/-! ## The frame of a successful free -/

theorem info_congr {σ α : Type} (b : Backend σ α) (s : σ) (r1 r2 : Registry) (j : Int)
    (hn : r1.nmodels = r2.nmodels) (hs : r1.slot j = r2.slot j) :
    llama_get_model_info b s r1 j = llama_get_model_info b s r2 j := by
  unfold llama_get_model_info
  rw [hn, hs]

/-- C19: a `llama_free_model h` that returns 0 leaves `nmodels` and every slot
other than `h` as they were, so `llama_get_model_info` on any other handle
returns what it returned before; and on a reachable registry, where every
occupied slot has reference count 1, it empties slot `h`. -/
theorem free_frame (r : Registry) (h : Int) (res : Ret)
    (hfree : llama_free_model r h = some res) (hok : res.ret = 0) :
    res.reg.nmodels = r.nmodels ∧
      (∀ j : Int, j ≠ h → res.reg.slot j = r.slot j) ∧
      (∀ (σ α : Type) (b : Backend σ α) (s : σ) (j : Int), j ≠ h →
        llama_get_model_info b s res.reg j = llama_get_model_info b s r j) ∧
      (Reachable r →
        (∀ (i : Int) (lm : LlamaModel), r.slot i = some (some lm) → lm.ref_count = 1) ∧
        res.reg.slot h = some none) := by
  have hnm := free_nmodels r h res hfree
  have hslots : ∀ j : Int, j ≠ h → res.reg.slot j = r.slot j := by
    intro j hj
    rcases free_cases r h res hfree with ⟨_, hreg, _⟩ | ⟨lm, h0, _, _, _, hcase⟩
    · rw [hreg]
    · rcases hcase with ⟨_, hreg⟩ | ⟨_, hreg⟩
      · rw [hreg, Registry.slot_store_ne r _ j _ (by omega)]
      · rw [hreg, Registry.slot_store_ne r _ j _ (by omega)]
  refine ⟨hnm, hslots, ?_, ?_⟩
  · intro σ α b s j hj
    exact info_congr b s _ _ j hnm (hslots j hj)
  · intro hr
    have hinv := reachable_inv r hr
    refine ⟨fun i lm hs => (hinv.sound i lm hs).2.2, ?_⟩
    rcases free_cases r h res hfree with ⟨hret, _⟩ | ⟨lm, h0, _, hslot, _, hcase⟩
    · rw [hret] at hok
      cases hok
    · have hrc := (hinv.sound h lm hslot).2.2
      have h32 := (Registry.slot_lt r h _ hslot).2
      rcases hcase with ⟨_, hreg⟩ | ⟨hpos, _⟩
      · rw [hreg]
        exact Registry.slot_store_same r h none h0 h32
      · omega

/-- C19, worked instance: with two models loaded, freeing handle 0 leaves
handle 1 and `nmodels` as they were and empties slot 0. -/
theorem free_frame_witness :
    (regTwo.store 0 none).nmodels = regTwo.nmodels ∧
      (∀ j : Int, j ≠ 0 → (regTwo.store 0 none).slot j = regTwo.slot j) ∧
      (∀ (σ α : Type) (b : Backend σ α) (s : σ) (j : Int), j ≠ 0 →
        llama_get_model_info b s (regTwo.store 0 none) j = llama_get_model_info b s regTwo j) ∧
      (∀ (i : Int) (lm : LlamaModel), regTwo.slot i = some (some lm) → lm.ref_count = 1) ∧
      (regTwo.store 0 none).slot 0 = some none :=
  ⟨(free_frame regTwo 0
      ⟨0, regTwo.store 0 none, [Call.free_ctx (some 9), Call.free_model (some 7)]⟩
      (by decide) rfl).1,
    (free_frame regTwo 0
      ⟨0, regTwo.store 0 none, [Call.free_ctx (some 9), Call.free_model (some 7)]⟩
      (by decide) rfl).2.1,
    (free_frame regTwo 0
      ⟨0, regTwo.store 0 none, [Call.free_ctx (some 9), Call.free_model (some 7)]⟩
      (by decide) rfl).2.2.1,
    (free_frame regTwo 0
      ⟨0, regTwo.store 0 none, [Call.free_ctx (some 9), Call.free_model (some 7)]⟩
      (by decide) rfl).2.2.2
      (Reachable.load envGood (some pathM) 1 0
        ⟨1, regTwo, [Call.backend_init, Call.load_model_from_file pathM 1 0,
          Call.new_context_with_model (some 7)]⟩
        (Reachable.load envGood (some pathM) 1 0
          ⟨0, regOne, [Call.backend_init, Call.load_model_from_file pathM 1 0,
            Call.new_context_with_model (some 7)]⟩ Reachable.init (by decide))
        (by decide))⟩

end Llambo
